import Mathlib

set_option autoImplicit false

namespace UnityFS

/-- Model of Python `datetime.datetime` values as produced by
`datetime.fromisoformat`: calendar fields plus an optional UTC offset in
minutes (`some off` = timezone-aware, `none` = naive). -/
structure PyDateTime where
  year : Nat
  month : Nat
  day : Nat
  hour : Nat
  minute : Nat
  second : Nat
  microsecond : Nat
  offsetMinutes : Option Int
  deriving DecidableEq, Repr

/-- Python values as they occur in the JSON records this repository handles:
strings, integers, booleans, `None`, lists, (insertion-ordered) dicts, and
`datetime` objects produced by normalization. Dicts are modelled as
association lists in insertion order, matching Python 3 dict semantics. -/
inductive PyVal where
  | str (s : String)
  | int (n : Int)
  | bool (b : Bool)
  | none
  | list (l : List PyVal)
  | dict (d : List (String × PyVal))
  | datetime (dt : PyDateTime)
  deriving Repr

mutual

/-- Structural equality test on `PyVal` (Python `==` on these values). -/
def pyBeq : PyVal → PyVal → Bool
  | PyVal.str a, PyVal.str b => a = b
  | PyVal.int a, PyVal.int b => a = b
  | PyVal.bool a, PyVal.bool b => a = b
  | PyVal.none, PyVal.none => true
  | PyVal.list as, PyVal.list bs => pyBeqList as bs
  | PyVal.dict as, PyVal.dict bs => pyBeqDict as bs
  | PyVal.datetime a, PyVal.datetime b => a = b
  | _, _ => false

/-- `pyBeq` on lists of values. -/
def pyBeqList : List PyVal → List PyVal → Bool
  | [], [] => true
  | a :: as, b :: bs => pyBeq a b && pyBeqList as bs
  | _, _ => false

/-- `pyBeq` on dict entry lists. -/
def pyBeqDict : List (String × PyVal) → List (String × PyVal) → Bool
  | [], [] => true
  | (ka, va) :: as, (kb, vb) :: bs =>
      decide (ka = kb) && pyBeq va vb && pyBeqDict as bs
  | _, _ => false

end

theorem pyVal_sizeOf_pos (a : PyVal) : 0 < sizeOf a := by
  cases a <;> simp_arith

theorem pyBeq_iff_bounded (n : Nat) :
    (∀ a b : PyVal, sizeOf a ≤ n → (pyBeq a b = true ↔ a = b)) ∧
    (∀ as bs : List PyVal, sizeOf as ≤ n → (pyBeqList as bs = true ↔ as = bs)) ∧
    (∀ as bs : List (String × PyVal), sizeOf as ≤ n →
      (pyBeqDict as bs = true ↔ as = bs)) := by
  induction n using Nat.strong_induction_on with
  | _ n ih =>
    refine ⟨?_, ?_, ?_⟩
    · intro a b hsz
      cases a <;> cases b <;> simp [pyBeq]
      · rename_i as bs
        have has : sizeOf as < n := by
          have := pyVal_sizeOf_pos (PyVal.list as)
          simp_arith at hsz ⊢
          omega
        exact (ih _ has).2.1 as bs (Nat.le_refl _)
      · rename_i as bs
        have has : sizeOf as < n := by
          simp_arith at hsz
          omega
        exact (ih _ has).2.2 as bs (Nat.le_refl _)
    · intro as bs hsz
      cases as <;> cases bs <;> simp [pyBeqList]
      rename_i a as' b bs'
      simp_arith at hsz
      have ha : sizeOf a < n := by omega
      have has : sizeOf as' < n := by
        have := pyVal_sizeOf_pos a
        omega
      rw [(ih _ ha).1 a b (Nat.le_refl _), (ih _ has).2.1 as' bs' (Nat.le_refl _)]
    · intro as bs hsz
      cases as <;> cases bs <;> simp [pyBeqDict]
      rename_i p as' q bs'
      obtain ⟨ka, va⟩ := p
      obtain ⟨kb, vb⟩ := q
      simp only [pyBeqDict, Bool.and_eq_true, decide_eq_true_eq]
      simp_arith at hsz
      have hv : sizeOf va < n := by omega
      have has : sizeOf as' < n := by
        have := pyVal_sizeOf_pos va
        omega
      rw [(ih _ hv).1 va vb (Nat.le_refl _), (ih _ has).2.2 as' bs' (Nat.le_refl _)]
      simp [and_assoc]

theorem pyBeq_iff : ∀ a b : PyVal, pyBeq a b = true ↔ a = b := fun a b =>
  (pyBeq_iff_bounded (sizeOf a)).1 a b (Nat.le_refl _)

instance : DecidableEq PyVal := fun a b =>
  decidable_of_iff (pyBeq a b = true) (pyBeq_iff a b)

/-- `d[k]` lookup in a Python dict modelled as an association list
(first matching key; Python dicts never hold duplicate keys). -/
def dictGet {α : Type} (k : String) : List (String × α) → Option α
  | [] => Option.none
  | (k', v) :: t => if k' = k then some v else dictGet k t

/-- Python `k in d`. -/
def dictMem {α : Type} (k : String) (m : List (String × α)) : Bool :=
  (dictGet k m).isSome

/-- Python `d[k] = v`: replace the value of an existing key in place
(keeping its position, as Python 3 dicts do), else append the new pair. -/
def dictSet {α : Type} (k : String) (v : α) : List (String × α) → List (String × α)
  | [] => [(k, v)]
  | (k', v') :: t => if k' = k then (k, v) :: t else (k', v') :: dictSet k v t

/-- Python `out.update(add)`: `dictSet` each pair of `add` into `out` in order. -/
def dictUpdate {α : Type} (out add : List (String × α)) : List (String × α) :=
  add.foldl (fun acc kv => dictSet kv.1 kv.2 acc) out

/-- The keys of a dict, in order. -/
def dictKeys {α : Type} (m : List (String × α)) : List String :=
  m.map Prod.fst

/-- The composed key `f"{parent}{sep}{k}" if parent else k` used by every
flattener in the repository (empty `parent` is falsy in Python). -/
def composeKey (parent sep k : String) : String :=
  if parent ≠ "" then parent ++ sep ++ k else k

mutual

/-- Loop body accumulation of `_flatten` from
`src/DBCreation/InsertTransferData.py` (identical to `_flatten_json` in
`src/DBCreation/InsertCustomerData.py`): walks the entries of a dict in
order, threading the `out` dict. -/
def flattenAux (entries : List (String × PyVal)) (parent sep : String)
    (out : List (String × PyVal)) : List (String × PyVal) :=
  match entries with
  | [] => out
  | (k, v) :: rest =>
      flattenAux rest parent sep (flattenStep v (composeKey parent sep k) sep out)

/-- One `_flatten` loop iteration on value `v` under composed key `nk`:
`out.update(_flatten(v, nk, sep))` for a dict value, `out[nk] = v`
unchanged for list and scalar values. -/
def flattenStep (v : PyVal) (nk sep : String)
    (out : List (String × PyVal)) : List (String × PyVal) :=
  match v with
  | PyVal.dict d => dictUpdate out (flattenAux d nk sep [])
  | _ => dictSet nk v out

end

/-- `_flatten(d, parent, sep)` from `src/DBCreation/InsertTransferData.py`. -/
def pyFlatten (d : List (String × PyVal)) (parent : String := "")
    (sep : String := "_") : List (String × PyVal) :=
  flattenAux d parent sep []

/-- Gregorian leap-year rule, as validated by `datetime`. -/
def isLeap (y : Nat) : Bool :=
  (y % 4 == 0 && y % 100 != 0) || y % 400 == 0

/-- Days in a month, as validated by `datetime`. -/
def daysInMonth (y m : Nat) : Nat :=
  if m = 2 then (if isLeap y then 29 else 28)
  else if m = 4 ∨ m = 6 ∨ m = 9 ∨ m = 11 then 30
  else 31

/-- Numeric value of a decimal digit character, else `none`. -/
def digitVal (c : Char) : Option Nat :=
  if c.isDigit then some (c.toNat - 48) else Option.none

/-- Read exactly two decimal digits. -/
def read2 : List Char → Option (Nat × List Char)
  | c1 :: c2 :: rest =>
    match digitVal c1, digitVal c2 with
    | some a, some b => some (10 * a + b, rest)
    | _, _ => Option.none
  | _ => Option.none

/-- Read exactly four decimal digits. -/
def read4 (l : List Char) : Option (Nat × List Char) :=
  match read2 l with
  | some (hi, r) =>
    match read2 r with
    | some (lo, r') => some (100 * hi + lo, r')
    | Option.none => Option.none
  | Option.none => Option.none

/-- Consume one expected character. -/
def expectChar (c : Char) : List Char → Option (List Char)
  | c' :: rest => if c' = c then some rest else Option.none
  | [] => Option.none

/-- Value of a digit run read as a decimal number. -/
def digitsVal (ds : List Char) : Nat :=
  ds.foldl (fun a c => a * 10 + (c.toNat - 48)) 0

/-- Fractional-seconds part after the `.`: exactly 3 or 6 digits, scaled to
microseconds (the forms `datetime.fromisoformat` documents). -/
def parseFrac (l : List Char) : Option (Nat × List Char) :=
  let ds := l.takeWhile Char.isDigit
  let rest := l.dropWhile Char.isDigit
  if ds.length = 3 then some (digitsVal ds * 1000, rest)
  else if ds.length = 6 then some (digitsVal ds, rest)
  else Option.none

/-- UTC-offset tail `±HH:MM` (must consume the whole remainder); result is
the offset in minutes. -/
def parseOffset : List Char → Option Int
  | sign :: rest =>
    if sign = '+' ∨ sign = '-' then
      match read2 rest with
      | some (hh, r1) =>
        match expectChar ':' r1 with
        | some r2 =>
          match read2 r2 with
          | some (mm, []) =>
            if hh ≤ 23 ∧ mm ≤ 59 then
              some (if sign = '-' then -((hh : Int) * 60 + mm)
                    else (hh : Int) * 60 + mm)
            else Option.none
          | _ => Option.none
        | Option.none => Option.none
      | Option.none => Option.none
    else Option.none
  | [] => Option.none

/-- Finish a time: validate fields and parse the optional UTC offset. -/
def finishTime (hh mm ss us : Nat) (rest : List Char) :
    Option (Nat × Nat × Nat × Nat × Option Int) :=
  if hh ≤ 23 ∧ mm ≤ 59 ∧ ss ≤ 59 then
    match rest with
    | [] => some (hh, mm, ss, us, Option.none)
    | _ =>
      match parseOffset rest with
      | some off => some (hh, mm, ss, us, some off)
      | Option.none => Option.none
  else Option.none

/-- Time-of-day part `HH[:MM[:SS[.fff[fff]]]][±HH:MM]`. -/
def parseTime (l : List Char) : Option (Nat × Nat × Nat × Nat × Option Int) :=
  match read2 l with
  | Option.none => Option.none
  | some (hh, r1) =>
    match r1 with
    | ':' :: r2 =>
      match read2 r2 with
      | Option.none => Option.none
      | some (mm, r3) =>
        match r3 with
        | ':' :: r4 =>
          match read2 r4 with
          | Option.none => Option.none
          | some (ss, r5) =>
            match r5 with
            | '.' :: r6 =>
              match parseFrac r6 with
              | some (us, r7) => finishTime hh mm ss us r7
              | Option.none => Option.none
            | _ => finishTime hh mm ss 0 r5
        | _ => finishTime hh mm 0 0 r3
    | _ => finishTime hh 0 0 0 r1

/-- Model of Python `datetime.fromisoformat` on the ISO-8601 extended forms
it documents: `YYYY-MM-DD[<sep>HH[:MM[:SS[.fff[fff]]]][±HH:MM]]`, with
calendar validation; any single character is accepted as the date–time
separator, and an offset yields a timezone-aware result. -/
def datetime_fromisoformat (s : String) : Option PyDateTime :=
  match read4 s.data with
  | Option.none => Option.none
  | some (y, r1) =>
    match expectChar '-' r1 with
    | Option.none => Option.none
    | some r2 =>
      match read2 r2 with
      | Option.none => Option.none
      | some (mo, r3) =>
        match expectChar '-' r3 with
        | Option.none => Option.none
        | some r4 =>
          match read2 r4 with
          | Option.none => Option.none
          | some (d, r5) =>
            if 1 ≤ y ∧ 1 ≤ mo ∧ mo ≤ 12 ∧ 1 ≤ d ∧ d ≤ daysInMonth y mo then
              match r5 with
              | [] => some ⟨y, mo, d, 0, 0, 0, 0, Option.none⟩
              | _ :: rest =>
                match parseTime rest with
                | some (hh, mm, ss, us, off) => some ⟨y, mo, d, hh, mm, ss, us, off⟩
                | Option.none => Option.none
            else Option.none

/-- The `Z` rewrite of `_normalize`: `if s.endswith("Z"): s = s[:-1] + "+00:00"`,
modelled on the character list (ends with `Z` iff the last character is `Z`;
`s[:-1]` drops the last character). -/
def zRewrite (s : String) : String :=
  if s.data.getLast? = some 'Z' then String.mk s.data.dropLast ++ "+00:00" else s

/-- The `try/except` around `datetime.fromisoformat` in `_normalize`: on
success the parsed datetime replaces the string, on failure the entry is
left untouched (letting PostgreSQL cast the string). -/
def normalizeParse (tkey s : String) (out : List (String × PyVal)) :
    List (String × PyVal) :=
  match datetime_fromisoformat (zRewrite s) with
  | some dt => dictSet tkey (PyVal.datetime dt) out
  | Option.none => out

/-- The body of the `for tkey in ("created_at", "updated_at")` loop of
`_normalize` in `src/DBCreation/InsertTransferData.py`: if `tkey` maps to a
string, rewrite a trailing `Z` to `+00:00` and try `datetime.fromisoformat`;
on success store the datetime, on failure leave the entry untouched. -/
def normalizeTkey (tkey : String) (out : List (String × PyVal)) :
    List (String × PyVal) :=
  match dictGet tkey out with
  | some (PyVal.str s) => normalizeParse tkey s out
  | _ => out

/-- Rule (1) of `_normalize`: the Bridge doc typo fix — when
`receipt_gas_fe` is present and `receipt_gas_fee` absent, copy the
misspelled value into the corrected key. -/
def gasFeeFix (out : List (String × PyVal)) : List (String × PyVal) :=
  if dictMem "receipt_gas_fe" out ∧ ¬ dictMem "receipt_gas_fee" out then
    match dictGet "receipt_gas_fe" out with
    | some v => dictSet "receipt_gas_fee" v out
    | Option.none => out
  else out

/-- `_normalize(flat)` from `src/DBCreation/InsertTransferData.py`:
copy `receipt_gas_fe` into `receipt_gas_fee` when only the misspelled key is
present, then normalize `created_at` and `updated_at` timestamp strings
(in that loop order). The embedding is a pure function: it builds a new
mapping (`out = dict(flat)`) and never mutates its argument. -/
def pyNormalize (flat : List (String × PyVal)) : List (String × PyVal) :=
  normalizeTkey "updated_at" (normalizeTkey "created_at" (gasFeeFix flat))

/-- `KEY_TO_COL` from `src/DBCreation/InsertTransferData.py`, in its source
iteration order (Python dicts iterate in insertion order). -/
def KEY_TO_COL : List (String × String) :=
  [("id", "id"),
   ("client_reference_id", "client_reference_id"),
   ("state", "state"),
   ("on_behalf_of", "on_behalf_of"),
   ("amount", "amount"),
   ("developer_fee", "developer_fee"),
   ("currency", "currency"),
   ("created_at", "created_at"),
   ("updated_at", "updated_at"),
   ("source_payment_rail", "source_payment_rail"),
   ("source_currency", "source_currency"),
   ("source_from_address", "source_from_address"),
   ("source_external_account_id", "source_external_account_id"),
   ("source_bridge_wallet_id", "source_bridge_wallet_id"),
   ("source_bank_beneficiary_name", "source_bank_beneficiary_name"),
   ("source_bank_routing_number", "source_bank_routing_number"),
   ("source_bank_account_number", "source_bank_account_number"),
   ("source_bank_name", "source_bank_name"),
   ("source_imad", "source_imad"),
   ("source_omad", "source_omad"),
   ("source_payment_scheme", "source_payment_scheme"),
   ("destination_payment_rail", "destination_payment_rail"),
   ("destination_currency", "destination_currency"),
   ("destination_to_address", "destination_to_address"),
   ("destination_external_account_id", "destination_external_account_id"),
   ("destination_bridge_wallet_id", "destination_bridge_wallet_id"),
   ("destination_wire_message", "destination_wire_message"),
   ("destination_sepa_reference", "destination_sepa_reference"),
   ("destination_swift_reference", "destination_swift_reference"),
   ("destination_spei_reference", "destination_spei_reference"),
   ("destination_swift_charges", "destination_swift_charges"),
   ("destination_ach_reference", "destination_ach_reference"),
   ("destination_blockchain_memo", "destination_blockchain_memo"),
   ("destination_deposit_id", "destination_deposit_id"),
   ("destination_imad", "destination_imad"),
   ("source_deposit_instructions_payment_rail", "sdi_payment_rail"),
   ("source_deposit_instructions_payment_rails", "sdi_payment_rails"),
   ("source_deposit_instructions_amount", "sdi_amount"),
   ("source_deposit_instructions_currency", "sdi_currency"),
   ("source_deposit_instructions_deposit_message", "sdi_deposit_message"),
   ("source_deposit_instructions_from_address", "sdi_from_address"),
   ("source_deposit_instructions_to_address", "sdi_to_address"),
   ("source_deposit_instructions_bank_beneficiary_name", "sdi_bank_beneficiary_name"),
   ("source_deposit_instructions_bank_routing_number", "sdi_bank_routing_number"),
   ("source_deposit_instructions_bank_account_number", "sdi_bank_account_number"),
   ("source_deposit_instructions_bank_name", "sdi_bank_name"),
   ("source_deposit_instructions_iban", "sdi_iban"),
   ("source_deposit_instructions_bic", "sdi_bic"),
   ("source_deposit_instructions_account_holder_name", "sdi_account_holder_name"),
   ("source_deposit_instructions_bank_address", "sdi_bank_address"),
   ("receipt_initial_amount", "receipt_initial_amount"),
   ("receipt_developer_fee", "receipt_developer_fee"),
   ("receipt_exchange_fee", "receipt_exchange_fee"),
   ("receipt_subtotal_amount", "receipt_subtotal_amount"),
   ("receipt_gas_fee", "receipt_gas_fee"),
   ("receipt_final_amount", "receipt_final_amount"),
   ("receipt_source_tx_hash", "receipt_source_tx_hash"),
   ("receipt_destination_tx_hash", "receipt_destination_tx_hash"),
   ("receipt_url", "receipt_url"),
   ("features_flexible_amount", "features_flexible_amount"),
   ("features_static_template", "features_static_template"),
   ("features_allow_any_from_address", "features_allow_any_from_address")]

/-- `column_mapping` from `insert_user` in
`src/DBCreation/InsertCustomerData.py`. -/
def USER_COLUMN_MAPPING : List (String × String) :=
  [("id", "id"),
   ("first_name", "first_name"),
   ("last_name", "last_name"),
   ("email", "email"),
   ("status", "status"),
   ("capabilities_payin_crypto", "payin_crypto"),
   ("capabilities_payout_crypto", "payout_crypto"),
   ("capabilities_payin_fiat", "payin_fiat"),
   ("capabilities_payout_fiat", "payout_fiat"),
   ("created_at", "created_at"),
   ("updated_at", "updated_at")]

/-- The column-mapping loop shared by `upsert_bridge_transfer` and
`insert_user`: walk the mapping in its own order and collect, for each
source key present in the record, the destination column and the value. -/
def buildColsVals (mapping : List (String × String))
    (norm : List (String × PyVal)) : List String × List PyVal :=
  mapping.foldl
    (fun acc kc =>
      match dictGet kc.1 norm with
      | some v => (acc.1 ++ [kc.2], acc.2 ++ [v])
      | Option.none => acc)
    ([], [])

/-- The parameterized upsert SQL text built by `upsert_bridge_transfer`
(surrounding whitespace of the triple-quoted literal elided). -/
def buildUpsertSql (cols : List String) : String :=
  "INSERT INTO bridge_transfers (" ++ String.intercalate ", " cols ++
    ") VALUES (" ++ String.intercalate ", " (cols.map fun _ => "%s") ++
    ") ON CONFLICT (id) DO UPDATE SET " ++
    String.intercalate ", "
      ((cols.filter (fun c => c ≠ "id")).map (fun c => c ++ "=EXCLUDED." ++ c))

/-- Database operations a function can issue on the psycopg2 connection. -/
inductive DbOp where
  | exec (sql : String) (params : List PyVal)
  | commit
  | rollback
  deriving DecidableEq, Repr

/-- Python exceptions relevant to these functions. -/
inductive PyErr where
  | valueError (msg : String)
  | dbError (msg : String)
  | requestException (msg : String)
  | jsonDecodeError (msg : String)
  | httpError (status : Nat)
  deriving DecidableEq, Repr

/-- A row of `bridge_transfers`: column name to value; columns absent from
the map are SQL `NULL`. -/
abbrev Row : Type := List (String × PyVal)

/-- The `id` column of a row (`id TEXT PRIMARY KEY` in the schema). -/
def rowId (r : Row) : Option PyVal :=
  dictGet "id" r

/-- `DO UPDATE SET c=EXCLUDED.c` semantics: assign every mapped column
except `id` (the conflict target is excluded from the SET list). -/
def updateRow (cols : List String) (vals : List PyVal) (r : Row) : Row :=
  ((cols.zip vals).filter (fun cv => cv.1 ≠ "id")).foldl
    (fun acc cv => dictSet cv.1 cv.2 acc) r

/-- `INSERT … ON CONFLICT (id) DO UPDATE` against a table: update the row
whose `id` equals the incoming one, else append a fresh row. -/
def tableUpsert (tbl : List Row) (idVal : PyVal) (cols : List String)
    (vals : List PyVal) : List Row :=
  match tbl with
  | [] => [cols.zip vals]
  | r :: t =>
    if rowId r = some idVal then updateRow cols vals r :: t
    else r :: tableUpsert t idVal cols vals

/-- Execution of the built upsert statement by PostgreSQL: an empty column
list is a syntax error and a missing `id` column violates
`id TEXT PRIMARY KEY` (NOT NULL), both reported as execution errors
(`none`); otherwise the upsert is applied. -/
def applyUpsertSql (tbl : List Row) (cols : List String)
    (vals : List PyVal) : Option (List Row) :=
  if cols.isEmpty then Option.none
  else
    match dictGet "id" (cols.zip vals) with
    | Option.none => Option.none
    | some idVal => some (tableUpsert tbl idVal cols vals)

/-- `upsert_bridge_transfer(conn, transfer_json)` from
`src/DBCreation/InsertTransferData.py`, over a connection modelled as the
committed table state. `execFault` injects an external execution error
(e.g. a dropped connection) into `cur.execute`. Returns the Python result
(`(1, len(cols))` or the raised exception), the committed table state
afterwards, and the trace of connection operations issued. -/
def upsert_bridge_transfer (tbl : List Row)
    (transfer_json : List (String × PyVal)) (execFault : Option String) :
    Except PyErr (Nat × Nat) × List Row × List DbOp :=
  let flat := pyFlatten transfer_json
  let norm := pyNormalize flat
  let cv := buildColsVals KEY_TO_COL norm
  if ¬ dictMem "id" transfer_json then
    (Except.error (PyErr.valueError "transfer_json missing required 'id'"), tbl, [])
  else
    let sql := buildUpsertSql cv.1
    match execFault with
    | some m => (Except.error (PyErr.dbError m), tbl, [DbOp.exec sql cv.2])
    | Option.none =>
      match applyUpsertSql tbl cv.1 cv.2 with
      | Option.none =>
          (Except.error (PyErr.dbError "execution failed"), tbl,
           [DbOp.exec sql cv.2])
      | some tbl' =>
          (Except.ok (1, cv.1.length), tbl', [DbOp.exec sql cv.2, DbOp.commit])

/-- `insert_user(conn, user_json)` from
`src/DBCreation/InsertCustomerData.py`: flatten, map through
`column_mapping`, bail out with `False` (and no SQL) when no column
matched, else execute the plain INSERT and commit; any exception is caught,
the transaction rolled back, and `False` returned. Result is the returned
Bool and the trace of connection operations. -/
def insert_user (user_json : List (String × PyVal))
    (execFault : Option String) : Bool × List DbOp :=
  let flat := pyFlatten user_json
  let cv := buildColsVals USER_COLUMN_MAPPING flat
  if cv.1.isEmpty then (false, [])
  else
    let sql := "INSERT INTO users (" ++ String.intercalate ", " cv.1 ++
      ") VALUES (" ++ String.intercalate ", " (cv.1.map fun _ => "%s") ++ ")"
    match execFault with
    | some _ => (false, [DbOp.exec sql cv.2, DbOp.rollback])
    | Option.none => (true, [DbOp.exec sql cv.2, DbOp.commit])

/-- Python `dict(items)`: later pairs win over earlier ones with the same
key, which keeps its first position. -/
def pyDictOf (items : List (String × PyVal)) : List (String × PyVal) :=
  dictUpdate [] items

mutual

/-- The `items` list built by `flatten_json(data, parent_key, sep)` from
`src/LiqAddHistoric.py` (the CSV-export flattener) before the final
`dict(items)`: recurses into both dicts and lists, indexing list elements
by position; a bare scalar maps from the parent key. -/
def fjItems (data : PyVal) (parent_key sep : String) : List (String × PyVal) :=
  match data with
  | PyVal.dict d => fjDict d parent_key sep
  | PyVal.list l => fjList l 0 parent_key sep
  | v => [(parent_key, v)]

/-- Dict branch of `flatten_json`: `items.extend(...)` appends the entries
of the recursively built dict for dict/list values, else the scalar pair. -/
def fjDict (d : List (String × PyVal)) (parent_key sep : String) :
    List (String × PyVal) :=
  match d with
  | [] => []
  | (k, v) :: rest =>
    (match v with
     | PyVal.dict d' => pyDictOf (fjItems (PyVal.dict d') (composeKey parent_key sep k) sep)
     | PyVal.list l' => pyDictOf (fjItems (PyVal.list l') (composeKey parent_key sep k) sep)
     | w => [(composeKey parent_key sep k, w)]) ++ fjDict rest parent_key sep

/-- List branch of `flatten_json`: `for i, item in enumerate(data)` with key
`f"{parent_key}{sep}{i}" if parent_key else str(i)`. -/
def fjList (l : List PyVal) (i : Nat) (parent_key sep : String) :
    List (String × PyVal) :=
  match l with
  | [] => []
  | item :: rest =>
    (match item with
     | PyVal.dict d' => pyDictOf (fjItems (PyVal.dict d') (composeKey parent_key sep (toString i)) sep)
     | PyVal.list l' => pyDictOf (fjItems (PyVal.list l') (composeKey parent_key sep (toString i)) sep)
     | w => [(composeKey parent_key sep (toString i), w)]) ++ fjList rest (i + 1) parent_key sep

end

/-- `flatten_json(data, parent_key, sep)` from `src/LiqAddHistoric.py`:
the built items converted by the final `dict(items)`. -/
def flatten_json (data : PyVal) (parent_key : String := "")
    (sep : String := "_") : List (String × PyVal) :=
  pyDictOf (fjItems data parent_key sep)

/-- An HTTP response as the `requests` library presents it: status code,
raw text, parsed JSON body (`none` when `.json()` would raise), headers. -/
structure HttpResponse where
  status_code : Nat
  text : String
  jsonBody : Option PyVal
  headers : List (String × String)
  deriving DecidableEq, Repr

/-- `response.ok` from `requests`: true when the status code is below 400. -/
def HttpResponse.ok (r : HttpResponse) : Bool :=
  r.status_code < 400

/-- The transport layer: either a delivered HTTP response or a
`requests.exceptions.RequestException` (connection failure / timeout)
carrying its message. -/
abbrev Transport : Type := Except String HttpResponse

/-- `create_transfer(api_key, payload)` from `src/utils/api_functions.py`
as a function of the transport outcome: a `RequestException` is caught and
turned into the structured failure dict; a delivered response is packaged
into the structured result (calling `.json()` only when `response.ok`,
whose own failure would propagate as an uncaught `ValueError`). -/
def create_transfer (outcome : Transport) :
    Except PyErr (List (String × PyVal)) :=
  match outcome with
  | Except.error e =>
      Except.ok
        [("status_code", PyVal.int 0),
         ("success", PyVal.bool false),
         ("data", PyVal.dict [("error", PyVal.str ("Error de conexión: " ++ e))]),
         ("headers", PyVal.dict [])]
  | Except.ok r =>
    if r.ok then
      match r.jsonBody with
      | some j =>
          Except.ok
            [("status_code", PyVal.int r.status_code),
             ("success", PyVal.bool true),
             ("data", j),
             ("headers", PyVal.dict (r.headers.map (fun kv => (kv.1, PyVal.str kv.2))))]
      | Option.none => Except.error (PyErr.jsonDecodeError "response body is not JSON")
    else
      Except.ok
        [("status_code", PyVal.int r.status_code),
         ("success", PyVal.bool false),
         ("data", PyVal.dict [("error", PyVal.str r.text)]),
         ("headers", PyVal.dict (r.headers.map (fun kv => (kv.1, PyVal.str kv.2))))]

/-- `create_virtual_accounts(...)` from `src/utils/api_functions.py`: no
try/except around `requests.post`, so a transport error propagates to the
caller; otherwise returns `(status_code, text, True)`. -/
def create_virtual_accounts (outcome : Transport) :
    Except PyErr (Nat × String × Bool) :=
  match outcome with
  | Except.error e => Except.error (PyErr.requestException e)
  | Except.ok r => Except.ok (r.status_code, r.text, true)

/-- `fetch_client_data(customer_id, api_key)` from
`src/utils/api_functions.py`: no try/except, so a transport error
propagates; `raise_for_status()` raises on a non-ok status; otherwise the
parsed JSON body is returned (`.json()` failure propagating as well). -/
def fetch_client_data (outcome : Transport) : Except PyErr PyVal :=
  match outcome with
  | Except.error e => Except.error (PyErr.requestException e)
  | Except.ok r =>
    if r.ok then
      match r.jsonBody with
      | some j => Except.ok j
      | Option.none => Except.error (PyErr.jsonDecodeError "response body is not JSON")
    else Except.error (PyErr.httpError r.status_code)

mutual

/-- Append-structured form of `_flatten`: the flat pairs emitted for each
entry, concatenated in entry order (agrees with `pyFlatten` whenever the
composed keys are pairwise distinct; proof-side helper). -/
def flatBlocks (entries : List (String × PyVal)) (parent sep : String) :
    List (String × PyVal) :=
  match entries with
  | [] => []
  | (k, v) :: rest =>
      flatBlockStep v (composeKey parent sep k) sep ++ flatBlocks rest parent sep

/-- The flat pairs one entry contributes. -/
def flatBlockStep (v : PyVal) (nk sep : String) : List (String × PyVal) :=
  match v with
  | PyVal.dict d => flatBlocks d nk sep
  | _ => [(nk, v)]

end

mutual

/-- The key paths of a nested record together with the value at each path
(dict values descend; list and scalar values are leaves). -/
def pathsV (entries : List (String × PyVal)) : List (List String × PyVal) :=
  match entries with
  | [] => []
  | (k, v) :: rest => pathsStep v k ++ pathsV rest

/-- The paths one entry contributes, rooted at its key. -/
def pathsStep (v : PyVal) (k : String) : List (List String × PyVal) :=
  match v with
  | PyVal.dict d => (pathsV d).map (fun pv => (k :: pv.1, pv.2))
  | _ => [([k], v)]

end

/-- Folding `composeKey` along a path: the composed flat key of that path. -/
def composePath (parent sep : String) (path : List String) : String :=
  path.foldl (fun acc k => composeKey acc sep k) parent

/-- Splitting a composed key on the (single-character) separator, the
re-nesting step named by the spec. -/
def splitKey (c : Char) (k : String) : List String :=
  (k.data.splitOn c).map (fun cs => String.mk cs)

/-- Modelled from the spec: the re-nesting step of the round-trip property
("re-nesting by splitting composed keys on the separator"), which has no
counterpart in the source. `insertPath path v m` places `v` at the nested
path `path` in `m`, descending into existing dict entries and appending
fresh ones. -/
def insertPath : List String → PyVal → List (String × PyVal) → List (String × PyVal)
  | [], _, m => m
  | [p], v, m => dictSet p v m
  | p :: ps, v, m =>
    match dictGet p m with
    | some (PyVal.dict d') => dictSet p (PyVal.dict (insertPath ps v d')) m
    | some _ => dictSet p (PyVal.dict (insertPath ps v [])) m
    | Option.none => m ++ [(p, PyVal.dict (insertPath ps v []))]

/-- Modelled from the spec: re-nesting a flat record by splitting each
composed key on the separator and inserting the value at that path. -/
def specUnflatten (c : Char) (flat : List (String × PyVal)) :
    List (String × PyVal) :=
  flat.foldl (fun acc kv => insertPath (splitKey c kv.1) kv.2 acc) []

/-- Folding `insertPath` over already-split (path, value) pairs
(proof-side view of `specUnflatten`). -/
def unflatFoldP (m : List (String × PyVal))
    (L : List (List String × PyVal)) : List (String × PyVal) :=
  L.foldl (fun acc pv => insertPath pv.1 pv.2 acc) m

/-- A key usable in an unambiguous flatten round-trip: nonempty and free of
the separator character. -/
def goodKey (c : Char) (s : String) : Bool :=
  !(s.data.isEmpty) && s.data.all (fun ch => ch ≠ c)

mutual

/-- Well-formedness of a nested record for the round-trip property: at
every level keys are pairwise distinct, nonempty and separator-free, and
every nested dict value is nonempty. -/
def wfEntries (c : Char) (d : List (String × PyVal)) : Bool :=
  match d with
  | [] => true
  | (k, v) :: rest =>
      goodKey c k && !(dictMem k rest) && wfVal c v && wfEntries c rest

/-- Well-formedness of one value: a dict value must be nonempty and itself
well-formed; list and scalar values are unconstrained. -/
def wfVal (c : Char) (v : PyVal) : Bool :=
  match v with
  | PyVal.dict d' => !(d'.isEmpty) && wfEntries c d'
  | _ => true

end

/-- "No sibling keys collide after prefixing": all composed flat keys of
the record are pairwise distinct (the precondition the round-trip claim
states). -/
def noKeyCollisions (d : List (String × PyVal)) (sep : String) : Bool :=
  decide ((dictKeys (flatBlocks d "" sep)).Nodup)

/-- Scalar in the flatteners' sense: neither a dict nor a list. -/
def isScalar : PyVal → Bool
  | PyVal.dict _ => false
  | PyVal.list _ => false
  | _ => true

/-- The (column, value) pairs the column-mapping loop emits: one pair per
mapping entry whose source key is present in the record, in mapping order
(proof-side characterization of `buildColsVals`). -/
def mappedPairs (mapping : List (String × String))
    (norm : List (String × PyVal)) : List (String × PyVal) :=
  mapping.filterMap
    (fun kc =>
      match dictGet kc.1 norm with
      | some v => some (kc.2, v)
      | Option.none => Option.none)

theorem dictGet_set_self {α : Type} (k : String) (v : α)
    (m : List (String × α)) : dictGet k (dictSet k v m) = some v := by
  induction m with
  | nil => simp [dictSet, dictGet]
  | cons p t ih =>
      obtain ⟨k', v'⟩ := p
      by_cases h : k' = k
      · subst h; simp [dictSet, dictGet]
      · simp [dictSet, dictGet, h, ih]

theorem dictGet_set_ne {α : Type} {k' k : String} (v : α)
    (m : List (String × α)) (h : k ≠ k') :
    dictGet k' (dictSet k v m) = dictGet k' m := by
  induction m with
  | nil => simp [dictSet, dictGet, h]
  | cons p t ih =>
      obtain ⟨k₀, v₀⟩ := p
      by_cases h0 : k₀ = k
      · subst h0; simp [dictSet, dictGet, h]
      · simp [dictSet, dictGet, h0, ih]

theorem dictSet_of_not_mem {α : Type} {k : String} (v : α)
    {m : List (String × α)} (h : dictMem k m = false) :
    dictSet k v m = m ++ [(k, v)] := by
  induction m with
  | nil => simp [dictSet]
  | cons p t ih =>
      obtain ⟨k₀, v₀⟩ := p
      by_cases h0 : k₀ = k
      · subst h0; simp [dictMem, dictGet] at h
      · simp [dictMem, dictGet, h0] at h
        simp [dictSet, h0]
        exact ih (by simp [dictMem, h])

theorem dictSet_of_get_eq {α : Type} {k : String} {v : α}
    {m : List (String × α)} (h : dictGet k m = some v) :
    dictSet k v m = m := by
  induction m with
  | nil => simp [dictGet] at h
  | cons p t ih =>
      obtain ⟨k₀, v₀⟩ := p
      by_cases h0 : k₀ = k
      · subst h0
        simp [dictGet] at h
        simp [dictSet, h]
      · simp [dictGet, h0] at h
        simp [dictSet, h0, ih h]

theorem dictMem_set {α : Type} (k' k : String) (v : α)
    (m : List (String × α)) :
    dictMem k' (dictSet k v m) = (dictMem k' m || k' = k) := by
  by_cases h : k = k'
  · subst h
    simp [dictMem, dictGet_set_self]
  · rw [dictMem, dictGet_set_ne v m h]
    simp [dictMem, Ne.symm h]

theorem dictGet_append {α : Type} (k : String) (m₁ m₂ : List (String × α)) :
    dictGet k (m₁ ++ m₂) =
      match dictGet k m₁ with
      | some v => some v
      | Option.none => dictGet k m₂ := by
  induction m₁ with
  | nil => simp [dictGet]
  | cons p t ih =>
      obtain ⟨k₀, v₀⟩ := p
      by_cases h0 : k₀ = k
      · subst h0; simp [dictGet]
      · simp [dictGet, h0, ih]

theorem foldlSet_get_not_mem {α : Type} {k : String}
    (ps : List (String × α)) (m : List (String × α))
    (h : ∀ p ∈ ps, p.1 ≠ k) :
    dictGet k (ps.foldl (fun acc cv => dictSet cv.1 cv.2 acc) m) =
      dictGet k m := by
  induction ps generalizing m with
  | nil => rfl
  | cons p t ih =>
      rw [List.foldl_cons, ih _ (fun q hq => h q (List.mem_cons_of_mem p hq)),
        dictGet_set_ne _ _ (h p (List.mem_cons_self p t))]

theorem foldlSet_of_get {α : Type} (ps : List (String × α))
    (m : List (String × α)) (h : ∀ p ∈ ps, dictGet p.1 m = some p.2) :
    ps.foldl (fun acc cv => dictSet cv.1 cv.2 acc) m = m := by
  induction ps with
  | nil => rfl
  | cons p t ih =>
      rw [List.foldl_cons, dictSet_of_get_eq (h p (List.mem_cons_self p t))]
      exact ih fun q hq => h q (List.mem_cons_of_mem p hq)

theorem foldlSet_get_mem {α : Type} {k : String} {v : α}
    (ps : List (String × α)) (m : List (String × α))
    (hnd : (ps.map Prod.fst).Nodup) (hm : (k, v) ∈ ps) :
    dictGet k (ps.foldl (fun acc cv => dictSet cv.1 cv.2 acc) m) = some v := by
  induction ps generalizing m with
  | nil => simp at hm
  | cons p t ih =>
      obtain ⟨k₀, v₀⟩ := p
      simp only [List.map_cons, List.nodup_cons] at hnd
      rw [List.foldl_cons]
      rcases List.mem_cons.mp hm with h1 | h1
      · injection h1 with hk hv
        subst hk; subst hv
        have hfree : ∀ q ∈ t, q.1 ≠ k := by
          intro q hq hqk
          apply hnd.1
          rw [← hqk]
          exact List.mem_map_of_mem Prod.fst hq
        rw [foldlSet_get_not_mem t _ hfree, dictGet_set_self]
      · exact ih _ hnd.2 h1

theorem dictGet_of_mem_nodup {α : Type} {k : String} {v : α}
    {m : List (String × α)} (hnd : (m.map Prod.fst).Nodup)
    (hm : (k, v) ∈ m) : dictGet k m = some v := by
  induction m with
  | nil => simp at hm
  | cons p t ih =>
      obtain ⟨k₀, v₀⟩ := p
      simp only [List.map_cons, List.nodup_cons] at hnd
      rcases List.mem_cons.mp hm with h1 | h1
      · cases h1; simp [dictGet]
      · have hk : k₀ ≠ k := fun h => by
          subst h
          exact hnd.1 (List.mem_map_of_mem Prod.fst h1)
        simp [dictGet, hk, ih hnd.2 h1]

theorem buildColsVals_eq (mapping : List (String × String))
    (norm : List (String × PyVal)) :
    buildColsVals mapping norm =
      ((mappedPairs mapping norm).map Prod.fst,
       (mappedPairs mapping norm).map Prod.snd) := by
  suffices h : ∀ acc : List String × List PyVal,
      mapping.foldl
        (fun acc kc =>
          match dictGet kc.1 norm with
          | some v => (acc.1 ++ [kc.2], acc.2 ++ [v])
          | Option.none => acc) acc =
      (acc.1 ++ (mappedPairs mapping norm).map Prod.fst,
       acc.2 ++ (mappedPairs mapping norm).map Prod.snd) by
    simpa [buildColsVals] using h ([], [])
  induction mapping with
  | nil => intro acc; simp [mappedPairs]
  | cons kc t ih =>
      intro acc
      rw [List.foldl_cons]
      cases hg : dictGet kc.1 norm with
      | none => simp [mappedPairs, List.filterMap_cons, hg, ih]
      | some v => simp [mappedPairs, List.filterMap_cons, hg, ih]

/-- C3. A raw record with no top-level `id` field makes
`upsert_bridge_transfer` raise `ValueError` before any SQL is built or
executed: no connection operation is issued and the table is unchanged,
whatever the execution environment would have done. -/
theorem upsert_missing_id_no_sql (tbl : List Row)
    (record : List (String × PyVal)) (execFault : Option String)
    (h : dictMem "id" record = false) :
    upsert_bridge_transfer tbl record execFault =
      (Except.error (PyErr.valueError "transfer_json missing required 'id'"),
       tbl, []) := by
  simp [upsert_bridge_transfer, h]

theorem upsert_missing_id_no_sql_witness :
    dictMem "id" [("state", PyVal.str "done")] = false ∧
    upsert_bridge_transfer [] [("state", PyVal.str "done")] Option.none =
      (Except.error (PyErr.valueError "transfer_json missing required 'id'"),
       [], []) :=
  ⟨by decide, upsert_missing_id_no_sql [] [("state", PyVal.str "done")]
    Option.none (by decide)⟩

/-- C2 (counterexample). On an execution error the code re-raises and never
commits, but it does not roll back: with an injected execution fault the
issued connection operations contain no `rollback`, refuting the claim
that the transaction is rolled back. -/
theorem upsert_no_rollback_counterexample :
    (upsert_bridge_transfer [] [("id", PyVal.str "t1")]
        (some "connection dropped")).1 =
      Except.error (PyErr.dbError "connection dropped") ∧
    DbOp.rollback ∉
      (upsert_bridge_transfer [] [("id", PyVal.str "t1")]
        (some "connection dropped")).2.2 := by
  constructor
  · rfl
  · decide

/-- C2 (amended). On any execution error, `upsert_bridge_transfer`
surfaces the error to the caller (re-raised, not swallowed), never reaches
`commit`, and leaves the committed table state unchanged — but it issues
no `rollback` either; the open transaction is left to the caller. -/
theorem upsert_exec_error_surfaced (tbl : List Row)
    (record : List (String × PyVal)) (m : String)
    (hid : dictMem "id" record = true) :
    (upsert_bridge_transfer tbl record (some m)).1 =
      Except.error (PyErr.dbError m) ∧
    (upsert_bridge_transfer tbl record (some m)).2.1 = tbl ∧
    DbOp.commit ∉ (upsert_bridge_transfer tbl record (some m)).2.2 ∧
    DbOp.rollback ∉ (upsert_bridge_transfer tbl record (some m)).2.2 := by
  simp [upsert_bridge_transfer, hid]

theorem upsert_exec_error_surfaced_witness :
    dictMem "id" [("id", PyVal.str "t1")] = true ∧
    ((upsert_bridge_transfer [] [("id", PyVal.str "t1")] (some "boom")).1 =
        Except.error (PyErr.dbError "boom") ∧
      (upsert_bridge_transfer [] [("id", PyVal.str "t1")] (some "boom")).2.1 = [] ∧
      DbOp.commit ∉
        (upsert_bridge_transfer [] [("id", PyVal.str "t1")] (some "boom")).2.2 ∧
      DbOp.rollback ∉
        (upsert_bridge_transfer [] [("id", PyVal.str "t1")] (some "boom")).2.2) :=
  ⟨by decide, upsert_exec_error_surfaced [] [("id", PyVal.str "t1")] "boom"
    (by decide)⟩

theorem mappedPairs_nil_of_none (mapping : List (String × String))
    (norm : List (String × PyVal))
    (h : ∀ kc ∈ mapping, dictGet kc.1 norm = Option.none) :
    mappedPairs mapping norm = [] := by
  induction mapping with
  | nil => rfl
  | cons kc t ih =>
      simp only [mappedPairs, List.filterMap_cons, h kc (List.mem_cons_self kc t)]
      exact ih fun q hq => h q (List.mem_cons_of_mem kc hq)

/-- C4 (counterexample). The raw record whose `id` is itself a dict
flattens to the single key `id_x`, which matches no entry of `KEY_TO_COL`;
yet `upsert_bridge_transfer` raises no "no mappable columns" condition —
it builds the SQL statement with an empty column list and attempts to
execute it (the operation trace is nonempty). -/
theorem no_mappable_columns_counterexample :
    ((dictKeys (pyFlatten [("id", PyVal.dict [("x", PyVal.int 1)])])).all
        (fun k => ¬ dictMem k KEY_TO_COL)) = true ∧
    (buildColsVals KEY_TO_COL
        (pyNormalize (pyFlatten [("id", PyVal.dict [("x", PyVal.int 1)])]))).1 = [] ∧
    (upsert_bridge_transfer [] [("id", PyVal.dict [("x", PyVal.int 1)])]
        Option.none).2.2 ≠ [] := by
  refine ⟨by decide, by decide, by decide⟩

/-- C4 (amended). `insert_user` realizes the claim: when the flat record
shares no key with `column_mapping`, it reports failure (returns `False`
after printing the no-valid-columns message) and issues no SQL at all.
`upsert_bridge_transfer` has no such guard: with no mappable key it either
raises the missing-`id` `ValueError` (when the raw record lacks `id`) or
builds and attempts an empty-column-list INSERT (see the counterexample). -/
theorem insert_user_no_mappable_columns (user_json : List (String × PyVal))
    (execFault : Option String)
    (h : ∀ kc ∈ USER_COLUMN_MAPPING,
        dictGet kc.1 (pyFlatten user_json) = Option.none) :
    insert_user user_json execFault = (false, []) := by
  have hcv : buildColsVals USER_COLUMN_MAPPING (pyFlatten user_json) = ([], []) := by
    rw [buildColsVals_eq, mappedPairs_nil_of_none _ _ h]
    rfl
  simp [insert_user, hcv]

theorem insert_user_no_mappable_columns_witness :
    (USER_COLUMN_MAPPING.all
        (fun kc => (dictGet kc.1 (pyFlatten [("zzz", PyVal.int 1)])).isNone))
      = true ∧
    insert_user [("zzz", PyVal.int 1)] Option.none = (false, []) :=
  ⟨by decide, insert_user_no_mappable_columns [("zzz", PyVal.int 1)]
    Option.none (by decide)⟩

theorem mappedPairs_fst (mapping : List (String × String))
    (norm : List (String × PyVal)) :
    (mappedPairs mapping norm).map Prod.fst =
      (mapping.filter (fun kc => dictMem kc.1 norm)).map Prod.snd := by
  induction mapping with
  | nil => rfl
  | cons kc t ih =>
      simp only [mappedPairs] at ih ⊢
      rw [List.filterMap_cons, List.filter_cons]
      cases hg : dictGet kc.1 norm with
      | none => simpa [hg, dictMem] using ih
      | some v => simpa [hg, dictMem] using ih

theorem dictMem_eq_any {α : Type} (k : String) (m : List (String × α)) :
    dictMem k m = m.any (fun p => p.1 = k) := by
  induction m with
  | nil => rfl
  | cons p t ih =>
      obtain ⟨k₀, v₀⟩ := p
      by_cases h : k₀ = k
      · simp [dictMem, dictGet, h]
      · simp [dictMem, dictGet, h] at ih ⊢
        exact ih

/-- C7. The column mapper emits exactly the mapping entries whose source
key is present in the (normalized) flat record: the emitted columns are
the mapping-ordered filter of `KEY_TO_COL` by presence, hence never a
column outside the table, never dropping a present mapped key, and in an
order that is a sublist of the mapping table's iteration order; permuting
the input record leaves the emitted column list unchanged. -/
theorem column_mapper_spec (norm : List (String × PyVal)) :
    (buildColsVals KEY_TO_COL norm).1 =
        ((KEY_TO_COL.filter (fun kc => dictMem kc.1 norm)).map Prod.snd) ∧
    (∀ c ∈ (buildColsVals KEY_TO_COL norm).1, c ∈ KEY_TO_COL.map Prod.snd) ∧
    (∀ kc ∈ KEY_TO_COL, dictMem kc.1 norm = true →
        kc.2 ∈ (buildColsVals KEY_TO_COL norm).1) ∧
    (buildColsVals KEY_TO_COL norm).1.Sublist (KEY_TO_COL.map Prod.snd) ∧
    (∀ norm' : List (String × PyVal), norm.Perm norm' →
        (buildColsVals KEY_TO_COL norm).1 = (buildColsVals KEY_TO_COL norm').1) := by
  have h1 : (buildColsVals KEY_TO_COL norm).1 =
      ((KEY_TO_COL.filter (fun kc => dictMem kc.1 norm)).map Prod.snd) := by
    rw [buildColsVals_eq, mappedPairs_fst]
  refine ⟨h1, ?_, ?_, ?_, ?_⟩
  · intro c hc
    rw [h1] at hc
    obtain ⟨kc, hkc, rfl⟩ := List.mem_map.mp hc
    exact List.mem_map_of_mem Prod.snd (List.mem_of_mem_filter hkc)
  · intro kc hkc hmem
    rw [h1]
    exact List.mem_map_of_mem Prod.snd
      (List.mem_filter.mpr ⟨hkc, by simpa using hmem⟩)
  · rw [h1]
    exact (List.filter_sublist _).map Prod.snd
  · intro norm' hperm
    have h1' : (buildColsVals KEY_TO_COL norm').1 =
        ((KEY_TO_COL.filter (fun kc => dictMem kc.1 norm')).map Prod.snd) := by
      rw [buildColsVals_eq, mappedPairs_fst]
    rw [h1, h1']
    congr 1
    apply List.filter_congr
    intro kc _
    rw [dictMem_eq_any, dictMem_eq_any]
    cases ha : norm.any (fun p => p.1 = kc.1) with
    | true =>
        obtain ⟨x, hx, hpx⟩ := List.any_eq_true.mp ha
        exact (List.any_eq_true.mpr ⟨x, hperm.mem_iff.mp hx, hpx⟩).symm
    | false =>
        have hall := List.any_eq_false.mp ha
        exact (List.any_eq_false.mpr
          (fun x hx => hall x (hperm.mem_iff.mpr hx))).symm

theorem column_mapper_spec_witness :
    ("state" ∈ (buildColsVals KEY_TO_COL
        [("state", PyVal.str "x"), ("amount", PyVal.int 2)]).1) ∧
    ("state" ∈ KEY_TO_COL.map Prod.snd) ∧
    (buildColsVals KEY_TO_COL
        [("state", PyVal.str "x"), ("amount", PyVal.int 2)]).1 =
      (buildColsVals KEY_TO_COL
        [("amount", PyVal.int 2), ("state", PyVal.str "x")]).1 :=
  have h := column_mapper_spec [("state", PyVal.str "x"), ("amount", PyVal.int 2)]
  ⟨h.2.2.1 ("state", "state") (by decide) (by decide),
   h.2.1 "state" (h.2.2.1 ("state", "state") (by decide) (by decide)),
   h.2.2.2.2 [("amount", PyVal.int 2), ("state", PyVal.str "x")] (by decide)⟩

theorem gasFeeFix_get_ne {k : String} (m : List (String × PyVal))
    (h : k ≠ "receipt_gas_fee") :
    dictGet k (gasFeeFix m) = dictGet k m := by
  unfold gasFeeFix
  split
  · cases hg : dictGet "receipt_gas_fe" m with
    | none => rfl
    | some v => exact dictGet_set_ne v m (Ne.symm h)
  · rfl

theorem gasFeeFix_mem {k : String} (m : List (String × PyVal))
    (h : dictMem k m = true) : dictMem k (gasFeeFix m) = true := by
  unfold gasFeeFix
  split
  · cases hg : dictGet "receipt_gas_fe" m with
    | none => exact h
    | some v => simp [dictMem_set, h]
  · exact h

theorem normalizeParse_get_ne (tkey s : String) {k : String}
    (m : List (String × PyVal)) (h : tkey ≠ k) :
    dictGet k (normalizeParse tkey s m) = dictGet k m := by
  unfold normalizeParse
  split
  · exact dictGet_set_ne _ m h
  · rfl

theorem normalizeTkey_get_ne (tkey : String) {k : String}
    (m : List (String × PyVal)) (h : tkey ≠ k) :
    dictGet k (normalizeTkey tkey m) = dictGet k m := by
  unfold normalizeTkey
  split
  · exact normalizeParse_get_ne _ _ m h
  · rfl

theorem normalizeParse_mem (tkey s : String) {k : String}
    (m : List (String × PyVal)) (h : dictMem k m = true) :
    dictMem k (normalizeParse tkey s m) = true := by
  unfold normalizeParse
  split
  · simp [dictMem_set, h]
  · exact h

theorem normalizeTkey_mem (tkey : String) {k : String}
    (m : List (String × PyVal)) (h : dictMem k m = true) :
    dictMem k (normalizeTkey tkey m) = true := by
  unfold normalizeTkey
  split
  · exact normalizeParse_mem _ _ m h
  · exact h

theorem normalizeTkey_eq_parse (tkey : String)
    (m : List (String × PyVal)) (s : String)
    (hget : dictGet tkey m = some (PyVal.str s)) :
    normalizeTkey tkey m = normalizeParse tkey s m := by
  unfold normalizeTkey
  split
  · rename_i s' heq
    rw [hget] at heq
    injection heq with heq'
    injection heq' with heq''
    rw [heq'']
  · rename_i hne
    exact (hne s (by rw [hget])).elim

theorem normalizeTkey_get_parsed (tkey : String)
    (m : List (String × PyVal)) (s : String) (dt : PyDateTime)
    (hget : dictGet tkey m = some (PyVal.str s))
    (hp : datetime_fromisoformat (zRewrite s) = some dt) :
    dictGet tkey (normalizeTkey tkey m) = some (PyVal.datetime dt) := by
  rw [normalizeTkey_eq_parse tkey m s hget]
  unfold normalizeParse
  rw [hp]
  exact dictGet_set_self tkey (PyVal.datetime dt) m

theorem normalizeTkey_of_fail (tkey : String)
    (m : List (String × PyVal)) (s : String)
    (hget : dictGet tkey m = some (PyVal.str s))
    (hp : datetime_fromisoformat (zRewrite s) = Option.none) :
    normalizeTkey tkey m = m := by
  rw [normalizeTkey_eq_parse tkey m s hget]
  unfold normalizeParse
  rw [hp]

/-- C10. `_normalize` is a frame-respecting pure transformation: the value
of every key other than `created_at`, `updated_at` and `receipt_gas_fee`
is returned unchanged (in particular the misspelled `receipt_gas_fe` entry
is retained), and no key of the input is ever removed. (The embedding is a
pure function over a fresh association list, matching `out = dict(flat)`:
the input mapping itself is never mutated.) -/
theorem normalize_frame (flat : List (String × PyVal)) :
    (∀ k, k ≠ "created_at" → k ≠ "updated_at" → k ≠ "receipt_gas_fee" →
      dictGet k (pyNormalize flat) = dictGet k flat) ∧
    (∀ k, dictMem k flat = true → dictMem k (pyNormalize flat) = true) := by
  constructor
  · intro k h1 h2 h3
    unfold pyNormalize
    rw [normalizeTkey_get_ne "updated_at" _ (Ne.symm h2),
      normalizeTkey_get_ne "created_at" _ (Ne.symm h1),
      gasFeeFix_get_ne _ h3]
  · intro k h
    unfold pyNormalize
    exact normalizeTkey_mem _ _ (normalizeTkey_mem _ _ (gasFeeFix_mem _ h))

theorem normalize_frame_witness :
    dictGet "state"
        (pyNormalize [("receipt_gas_fe", PyVal.str "1.5"), ("state", PyVal.str "ok")]) =
      dictGet "state" [("receipt_gas_fe", PyVal.str "1.5"), ("state", PyVal.str "ok")] ∧
    dictGet "receipt_gas_fe"
        (pyNormalize [("receipt_gas_fe", PyVal.str "1.5"), ("state", PyVal.str "ok")]) =
      dictGet "receipt_gas_fe"
        [("receipt_gas_fe", PyVal.str "1.5"), ("state", PyVal.str "ok")] ∧
    dictMem "receipt_gas_fe"
        (pyNormalize [("receipt_gas_fe", PyVal.str "1.5"), ("state", PyVal.str "ok")]) =
      true :=
  have h := normalize_frame
    [("receipt_gas_fe", PyVal.str "1.5"), ("state", PyVal.str "ok")]
  ⟨h.1 "state" (by decide) (by decide) (by decide),
   h.1 "receipt_gas_fe" (by decide) (by decide) (by decide),
   h.2 "receipt_gas_fe" (by decide)⟩

theorem gasFeeFix_copies (m : List (String × PyVal))
    (h1 : dictMem "receipt_gas_fe" m = true)
    (h2 : dictMem "receipt_gas_fee" m = false) :
    dictGet "receipt_gas_fee" (gasFeeFix m) = dictGet "receipt_gas_fe" m := by
  unfold gasFeeFix
  rw [if_pos ⟨h1, by simp [h2]⟩]
  cases hg : dictGet "receipt_gas_fe" m with
  | none => simp [dictMem, hg] at h1
  | some v => rw [dictGet_set_self]

/-- C6. The normalizer's rules, in their source order: (1) when the
misspelled `receipt_gas_fe` is present and `receipt_gas_fee` absent, the
misspelled value is copied into `receipt_gas_fee`; (2) for each of
`created_at` and `updated_at`, the value `"2024-01-01T00:00:00Z"` has its
trailing `Z` rewritten to `+00:00` and parses to the timezone-aware
datetime 2024-01-01 00:00:00 at UTC offset 0 (UTC midnight); (3) when the
rewritten string fails to parse, the original string value is left
unchanged. -/
theorem normalize_rules (flat : List (String × PyVal)) :
    (dictMem "receipt_gas_fe" flat = true →
      dictMem "receipt_gas_fee" flat = false →
      dictGet "receipt_gas_fee" (pyNormalize flat) =
        dictGet "receipt_gas_fe" flat) ∧
    (∀ tkey, (tkey = "created_at" ∨ tkey = "updated_at") →
      dictGet tkey flat = some (PyVal.str "2024-01-01T00:00:00Z") →
      dictGet tkey (pyNormalize flat) =
        some (PyVal.datetime (PyDateTime.mk 2024 1 1 0 0 0 0 (some 0)))) ∧
    (∀ tkey s, (tkey = "created_at" ∨ tkey = "updated_at") →
      dictGet tkey flat = some (PyVal.str s) →
      datetime_fromisoformat (zRewrite s) = Option.none →
      dictGet tkey (pyNormalize flat) = some (PyVal.str s)) := by
  refine ⟨?_, ?_, ?_⟩
  · intro h1 h2
    unfold pyNormalize
    rw [normalizeTkey_get_ne "updated_at" _ (by decide),
      normalizeTkey_get_ne "created_at" _ (by decide)]
    exact gasFeeFix_copies flat h1 h2
  · intro tkey htk hget
    rcases htk with h | h <;> subst h
    · have hget1 : dictGet "created_at" (gasFeeFix flat) =
          some (PyVal.str "2024-01-01T00:00:00Z") := by
        rw [gasFeeFix_get_ne _ (by decide), hget]
      unfold pyNormalize
      rw [normalizeTkey_get_ne "updated_at" _ (by decide)]
      exact normalizeTkey_get_parsed _ _ _ _ hget1 (by decide)
    · have hget1 : dictGet "updated_at"
          (normalizeTkey "created_at" (gasFeeFix flat)) =
          some (PyVal.str "2024-01-01T00:00:00Z") := by
        rw [normalizeTkey_get_ne "created_at" _ (by decide),
          gasFeeFix_get_ne _ (by decide), hget]
      unfold pyNormalize
      exact normalizeTkey_get_parsed _ _ _ _ hget1 (by decide)
  · intro tkey s htk hget hp
    rcases htk with h | h <;> subst h
    · have hget1 : dictGet "created_at" (gasFeeFix flat) =
          some (PyVal.str s) := by
        rw [gasFeeFix_get_ne _ (by decide), hget]
      unfold pyNormalize
      rw [normalizeTkey_of_fail "created_at" _ s hget1 hp,
        normalizeTkey_get_ne "updated_at" _ (by decide)]
      exact hget1
    · have hget1 : dictGet "updated_at"
          (normalizeTkey "created_at" (gasFeeFix flat)) =
          some (PyVal.str s) := by
        rw [normalizeTkey_get_ne "created_at" _ (by decide),
          gasFeeFix_get_ne _ (by decide), hget]
      unfold pyNormalize
      rw [normalizeTkey_of_fail "updated_at" _ s hget1 hp]
      exact hget1

theorem normalize_rules_witness :
    dictGet "receipt_gas_fee"
        (pyNormalize [("created_at", PyVal.str "2024-01-01T00:00:00Z"),
          ("updated_at", PyVal.str "not-a-date"),
          ("receipt_gas_fe", PyVal.str "1.5")]) =
      dictGet "receipt_gas_fe"
        [("created_at", PyVal.str "2024-01-01T00:00:00Z"),
         ("updated_at", PyVal.str "not-a-date"),
         ("receipt_gas_fe", PyVal.str "1.5")] ∧
    dictGet "created_at"
        (pyNormalize [("created_at", PyVal.str "2024-01-01T00:00:00Z"),
          ("updated_at", PyVal.str "not-a-date"),
          ("receipt_gas_fe", PyVal.str "1.5")]) =
      some (PyVal.datetime (PyDateTime.mk 2024 1 1 0 0 0 0 (some 0))) ∧
    dictGet "updated_at"
        (pyNormalize [("created_at", PyVal.str "2024-01-01T00:00:00Z"),
          ("updated_at", PyVal.str "not-a-date"),
          ("receipt_gas_fe", PyVal.str "1.5")]) =
      some (PyVal.str "not-a-date") :=
  have h := normalize_rules
    [("created_at", PyVal.str "2024-01-01T00:00:00Z"),
     ("updated_at", PyVal.str "not-a-date"),
     ("receipt_gas_fe", PyVal.str "1.5")]
  ⟨h.1 (by decide) (by decide),
   h.2.1 "created_at" (Or.inl rfl) (by decide),
   h.2.2 "updated_at" "not-a-date" (Or.inr rfl) (by decide) (by decide)⟩

/-- C9 (counterexample). A transport error is not caught everywhere: with a
connection failure, `fetch_client_data` and `create_virtual_accounts` let
the raw `requests` exception propagate out of the API-function layer
instead of returning a structured failure result. -/
theorem transport_error_propagates_counterexample :
    fetch_client_data (Except.error "Connection timed out") =
      Except.error (PyErr.requestException "Connection timed out") ∧
    create_virtual_accounts (Except.error "Connection timed out") =
      Except.error (PyErr.requestException "Connection timed out") :=
  ⟨rfl, rfl⟩

/-- C9 (amended). Only `create_transfer` catches transport errors and turns
them into the structured failure dict (`status_code 0`, `success False`,
error message in `data`); `fetch_client_data` and
`create_virtual_accounts` propagate the raw exception to their callers. -/
theorem transport_error_handling (e : String) :
    create_transfer (Except.error e) =
      Except.ok
        [("status_code", PyVal.int 0),
         ("success", PyVal.bool false),
         ("data", PyVal.dict [("error", PyVal.str ("Error de conexión: " ++ e))]),
         ("headers", PyVal.dict [])] ∧
    fetch_client_data (Except.error e) =
      Except.error (PyErr.requestException e) ∧
    create_virtual_accounts (Except.error e) =
      Except.error (PyErr.requestException e) :=
  ⟨rfl, rfl, rfl⟩

theorem flattenAux_append (xs ys : List (String × PyVal)) (p s : String)
    (out : List (String × PyVal)) :
    flattenAux (xs ++ ys) p s out = flattenAux ys p s (flattenAux xs p s out) := by
  induction xs generalizing out with
  | nil => rfl
  | cons e t ih =>
      obtain ⟨k, v⟩ := e
      simp only [List.cons_append, flattenAux]
      exact ih _

/-- C8. The two flatteners treat sequences differently, as the spec says:
`_flatten` (transfer/user-table path) stores a list value unchanged under
its composed key without recursing into it; `flatten_json` (CSV-export
variant) recurses into list elements producing keys indexed by element
position (`parent_sep_i`), to arbitrary depth (e.g. a nested list yields
the doubly indexed key `0_0`). -/
theorem flattener_list_behavior :
    (∀ (d : List (String × PyVal)) (k : String) (l : List PyVal)
        (parent sep : String),
      dictGet (composeKey parent sep k)
          (pyFlatten (d ++ [(k, PyVal.list l)]) parent sep) =
        some (PyVal.list l)) ∧
    (∀ (l : List PyVal) (i : Nat) (parent sep : String),
      (∀ v ∈ l, isScalar v = true) →
      fjList l i parent sep =
        (l.enumFrom i).map
          (fun iv => (composeKey parent sep (toString iv.1), iv.2))) ∧
    flatten_json (PyVal.list [PyVal.list [PyVal.int 5]]) "" "_" =
      [("0_0", PyVal.int 5)] := by
  refine ⟨?_, ?_, by decide⟩
  · intro d k l parent sep
    unfold pyFlatten
    rw [flattenAux_append]
    show dictGet (composeKey parent sep k)
      (dictSet (composeKey parent sep k) (PyVal.list l)
        (flattenAux d parent sep [])) = some (PyVal.list l)
    exact dictGet_set_self _ _ _
  · intro l i parent sep h
    induction l generalizing i with
    | nil => rfl
    | cons v t ih =>
        have hv := h v (List.mem_cons_self v t)
        have ht := fun w hw => h w (List.mem_cons_of_mem v hw)
        cases v <;> simp [isScalar] at hv <;>
          simp [fjList, List.enumFrom_cons] <;> exact ih (i + 1) ht

theorem flattener_list_behavior_witness :
    dictGet (composeKey "a" "_" "b")
        (pyFlatten ([("x", PyVal.int 1)] ++ [("b", PyVal.list [PyVal.int 7])])
          "a" "_") = some (PyVal.list [PyVal.int 7]) ∧
    ([PyVal.int 1, PyVal.str "q"].all isScalar) = true ∧
    fjList [PyVal.int 1, PyVal.str "q"] 0 "p" "_" =
      (([PyVal.int 1, PyVal.str "q"].enumFrom 0).map
        (fun iv => (composeKey "p" "_" (toString iv.1), iv.2))) :=
  have h := flattener_list_behavior
  ⟨h.1 [("x", PyVal.int 1)] "b" [PyVal.int 7] "a" "_",
   by decide,
   h.2.1 [PyVal.int 1, PyVal.str "q"] 0 "p" "_" (by decide)⟩

theorem KEY_TO_COL_cols_nodup : (KEY_TO_COL.map Prod.snd).Nodup := by decide

theorem zip_buildColsVals (mapping : List (String × String))
    (norm : List (String × PyVal)) :
    ((buildColsVals mapping norm).1).zip ((buildColsVals mapping norm).2) =
      mappedPairs mapping norm := by
  rw [buildColsVals_eq]
  simp [List.zip_map']

theorem mappedPairs_fst_nodup (norm : List (String × PyVal)) :
    ((mappedPairs KEY_TO_COL norm).map Prod.fst).Nodup := by
  rw [mappedPairs_fst]
  exact List.Nodup.sublist ((List.filter_sublist _).map Prod.snd)
    KEY_TO_COL_cols_nodup

theorem rowId_updateRow (cols : List String) (vals : List PyVal) (r : Row) :
    rowId (updateRow cols vals r) = rowId r := by
  unfold updateRow rowId
  apply foldlSet_get_not_mem
  intro p hp
  have := List.of_mem_filter hp
  simpa using this

theorem updateRow_idem (cols : List String) (vals : List PyVal)
    (hnd : ((cols.zip vals).map Prod.fst).Nodup) (r : Row) :
    updateRow cols vals (updateRow cols vals r) = updateRow cols vals r := by
  unfold updateRow
  apply foldlSet_of_get
  intro p hp
  exact foldlSet_get_mem _ _
    (List.Nodup.sublist ((List.filter_sublist _).map Prod.fst) hnd) hp

theorem updateRow_new (cols : List String) (vals : List PyVal)
    (hnd : ((cols.zip vals).map Prod.fst).Nodup) :
    updateRow cols vals (cols.zip vals) = cols.zip vals := by
  apply foldlSet_of_get
  intro p hp
  exact dictGet_of_mem_nodup hnd (List.mem_of_mem_filter hp)

theorem tableUpsert_idem (tbl : List Row) (idVal : PyVal)
    (cols : List String) (vals : List PyVal)
    (hidrow : rowId (cols.zip vals) = some idVal)
    (hnd : ((cols.zip vals).map Prod.fst).Nodup) :
    tableUpsert (tableUpsert tbl idVal cols vals) idVal cols vals =
      tableUpsert tbl idVal cols vals := by
  induction tbl with
  | nil => simp [tableUpsert, hidrow, updateRow_new cols vals hnd]
  | cons r t ih =>
      by_cases hr : rowId r = some idVal
      · simp [tableUpsert, hr, rowId_updateRow, updateRow_idem cols vals hnd]
      · simp [tableUpsert, hr, ih]

theorem tableUpsert_count (tbl : List Row) (idVal : PyVal)
    (cols : List String) (vals : List PyVal)
    (hidrow : rowId (cols.zip vals) = some idVal)
    (hnd : (tbl.map rowId).Nodup) :
    ((tableUpsert tbl idVal cols vals).filter
        (fun r => rowId r = some idVal)).length = 1 := by
  induction tbl with
  | nil => simp [tableUpsert, List.filter_cons, hidrow]
  | cons r t ih =>
      simp only [List.map_cons, List.nodup_cons] at hnd
      by_cases hr : rowId r = some idVal
      · have hzero : t.filter (fun r' => rowId r' = some idVal) = [] := by
          apply List.filter_eq_nil_iff.mpr
          intro r' hr'
          simp only [decide_eq_true_eq]
          intro heq
          exact hnd.1 (hr ▸ heq ▸ List.mem_map_of_mem rowId hr')
        simp [tableUpsert, hr, List.filter_cons, rowId_updateRow, hzero]
      · simp [tableUpsert, hr, List.filter_cons]
        exact ih hnd.2

theorem upsert_run_eq (t : List Row) (record : List (String × PyVal))
    (hid : dictMem "id" record = true) :
    (upsert_bridge_transfer t record Option.none).2.1 =
      match applyUpsertSql t
          (buildColsVals KEY_TO_COL (pyNormalize (pyFlatten record))).1
          (buildColsVals KEY_TO_COL (pyNormalize (pyFlatten record))).2 with
      | some t' => t'
      | Option.none => t := by
  simp only [upsert_bridge_transfer, hid]
  cases happ : applyUpsertSql t
      (buildColsVals KEY_TO_COL (pyNormalize (pyFlatten record))).1
      (buildColsVals KEY_TO_COL (pyNormalize (pyFlatten record))).2 with
  | none => simp [happ]
  | some t' => simp [happ]

/-- C1. The upsert is idempotent: with an `id`-bearing record, applying
`upsert_bridge_transfer` a second time to the resulting table state
changes nothing, and (in a table whose rows have pairwise-distinct ids, as
the `id` PRIMARY KEY guarantees) the resulting table holds exactly one row
keyed by the record's id value, whose columns equal the second
application's values (the two states being equal). -/
theorem upsert_idempotent (tbl : List Row) (record : List (String × PyVal))
    (hid : dictMem "id" record = true) (hnd : (tbl.map rowId).Nodup) :
    ((upsert_bridge_transfer
        (upsert_bridge_transfer tbl record Option.none).2.1 record
        Option.none).2.1 =
      (upsert_bridge_transfer tbl record Option.none).2.1) ∧
    (∀ idVal,
      dictGet "id"
          ((buildColsVals KEY_TO_COL (pyNormalize (pyFlatten record))).1.zip
            (buildColsVals KEY_TO_COL (pyNormalize (pyFlatten record))).2) =
        some idVal →
      (((upsert_bridge_transfer tbl record Option.none).2.1).filter
          (fun r => rowId r = some idVal)).length = 1) := by
  have hrun := fun t => upsert_run_eq t record hid
  have hndz : (((buildColsVals KEY_TO_COL (pyNormalize (pyFlatten record))).1.zip
      (buildColsVals KEY_TO_COL (pyNormalize (pyFlatten record))).2).map
        Prod.fst).Nodup := by
    rw [zip_buildColsVals]
    exact mappedPairs_fst_nodup _
  cases happ : applyUpsertSql tbl
      (buildColsVals KEY_TO_COL (pyNormalize (pyFlatten record))).1
      (buildColsVals KEY_TO_COL (pyNormalize (pyFlatten record))).2 with
  | none =>
      constructor
      · rw [hrun tbl, happ, hrun tbl, happ]
      · intro idVal hidv
        exfalso
        have hne : (buildColsVals KEY_TO_COL
            (pyNormalize (pyFlatten record))).1.isEmpty = false := by
          cases hc : (buildColsVals KEY_TO_COL
              (pyNormalize (pyFlatten record))).1 with
          | nil => rw [hc] at hidv; simp [dictGet] at hidv
          | cons a l => simp
        rw [applyUpsertSql, hne] at happ
        simp only [Bool.false_eq_true, if_false] at happ
        rw [hidv] at happ
        simp at happ
  | some tbl1 =>
      cases hE : (buildColsVals KEY_TO_COL
          (pyNormalize (pyFlatten record))).1.isEmpty with
      | true => rw [applyUpsertSql, hE] at happ; simp at happ
      | false =>
        cases hg : dictGet "id"
            ((buildColsVals KEY_TO_COL (pyNormalize (pyFlatten record))).1.zip
              (buildColsVals KEY_TO_COL (pyNormalize (pyFlatten record))).2) with
        | none =>
            rw [applyUpsertSql, hE] at happ
            simp only [Bool.false_eq_true, if_false] at happ
            rw [hg] at happ
            simp at happ
        | some idVal =>
            have htbl1 : tbl1 = tableUpsert tbl idVal
                (buildColsVals KEY_TO_COL (pyNormalize (pyFlatten record))).1
                (buildColsVals KEY_TO_COL (pyNormalize (pyFlatten record))).2 := by
              rw [applyUpsertSql, hE] at happ
              simp only [Bool.false_eq_true, if_false] at happ
              rw [hg] at happ
              simp at happ
              exact happ.symm
            have hidrow : rowId
                ((buildColsVals KEY_TO_COL (pyNormalize (pyFlatten record))).1.zip
                  (buildColsVals KEY_TO_COL (pyNormalize (pyFlatten record))).2) =
                some idVal := hg
            have happ2 : applyUpsertSql tbl1
                (buildColsVals KEY_TO_COL (pyNormalize (pyFlatten record))).1
                (buildColsVals KEY_TO_COL (pyNormalize (pyFlatten record))).2 =
                some (tableUpsert tbl1 idVal
                  (buildColsVals KEY_TO_COL (pyNormalize (pyFlatten record))).1
                  (buildColsVals KEY_TO_COL (pyNormalize (pyFlatten record))).2) := by
              rw [applyUpsertSql, hE]
              simp only [Bool.false_eq_true, if_false]
              rw [hg]
            constructor
            · rw [hrun tbl, happ, hrun tbl1, happ2]
              show tableUpsert tbl1 idVal _ _ = tbl1
              rw [htbl1]
              exact tableUpsert_idem tbl idVal _ _ hidrow hndz
            · intro idVal' hidv
              injection hidv with h4
              subst h4
              rw [hrun tbl, happ, htbl1]
              exact tableUpsert_count tbl idVal _ _ hidrow hnd

theorem upsert_idempotent_witness :
    dictMem "id" [("id", PyVal.str "t1"), ("amount", PyVal.str "5")] = true ∧
    (([] : List Row).map rowId).Nodup ∧
    ((upsert_bridge_transfer
        (upsert_bridge_transfer []
          [("id", PyVal.str "t1"), ("amount", PyVal.str "5")]
          Option.none).2.1
        [("id", PyVal.str "t1"), ("amount", PyVal.str "5")]
        Option.none).2.1 =
      (upsert_bridge_transfer []
        [("id", PyVal.str "t1"), ("amount", PyVal.str "5")]
        Option.none).2.1) ∧
    dictGet "id"
        ((buildColsVals KEY_TO_COL (pyNormalize (pyFlatten
          [("id", PyVal.str "t1"), ("amount", PyVal.str "5")]))).1.zip
          (buildColsVals KEY_TO_COL (pyNormalize (pyFlatten
            [("id", PyVal.str "t1"), ("amount", PyVal.str "5")]))).2) =
      some (PyVal.str "t1") ∧
    ((upsert_bridge_transfer []
        [("id", PyVal.str "t1"), ("amount", PyVal.str "5")]
        Option.none).2.1.filter
        (fun r => rowId r = some (PyVal.str "t1"))).length = 1 :=
  ⟨by decide, by simp,
   (upsert_idempotent [] [("id", PyVal.str "t1"), ("amount", PyVal.str "5")]
     (by decide) (by simp)).1,
   by decide,
   (upsert_idempotent [] [("id", PyVal.str "t1"), ("amount", PyVal.str "5")]
     (by decide) (by simp)).2 (PyVal.str "t1") (by decide)⟩

theorem dictMem_append {α : Type} (k : String) (m₁ m₂ : List (String × α)) :
    dictMem k (m₁ ++ m₂) = (dictMem k m₁ || dictMem k m₂) := by
  rw [dictMem, dictGet_append]
  cases h : dictGet k m₁ with
  | none => simp [dictMem, h]
  | some v => simp [dictMem, h]

theorem dictMem_false_iff {α : Type} (k : String) (m : List (String × α)) :
    dictMem k m = false ↔ k ∉ m.map Prod.fst := by
  rw [dictMem_eq_any]
  rw [← Bool.not_eq_true, List.any_eq_true]
  constructor
  · intro h hk
    obtain ⟨p, hp, hpk⟩ := List.mem_map.mp hk
    exact h ⟨p, hp, by simp [hpk]⟩
  · intro h ⟨p, hp, hpk⟩
    exact h (List.mem_map.mpr ⟨p, hp, by simpa using hpk⟩)

theorem dictUpdate_append {α : Type} (out add : List (String × α))
    (hnd : (add.map Prod.fst).Nodup)
    (hdisj : ∀ p ∈ add, dictMem p.1 out = false) :
    dictUpdate out add = out ++ add := by
  induction add generalizing out with
  | nil => simp [dictUpdate]
  | cons p t ih =>
      simp only [List.map_cons, List.nodup_cons] at hnd
      unfold dictUpdate
      rw [List.foldl_cons,
        dictSet_of_not_mem p.2 (hdisj p (List.mem_cons_self p t))]
      have ht : ∀ q ∈ t, dictMem q.1 (out ++ [(p.1, p.2)]) = false := by
        intro q hq
        rw [dictMem_append]
        have h1 := hdisj q (List.mem_cons_of_mem p hq)
        have h2 : dictMem q.1 [(p.1, p.2)] = false := by
          have hqp : q.1 ≠ p.1 := by
            intro he
            exact hnd.1 (he ▸ List.mem_map_of_mem Prod.fst hq)
          simp [dictMem, dictGet, Ne.symm hqp]
        simp [h1, h2]
      have := ih (out ++ [(p.1, p.2)]) hnd.2 ht
      unfold dictUpdate at this
      rw [this]
      simp

theorem flattenStep_non_dict (v : PyVal) (nk s : String)
    (out : List (String × PyVal)) (h : ∀ d, v ≠ PyVal.dict d) :
    flattenStep v nk s out = dictSet nk v out := by
  cases v <;> first
    | rfl
    | exact absurd rfl (h _)

theorem flatBlockStep_non_dict (v : PyVal) (nk s : String)
    (h : ∀ d, v ≠ PyVal.dict d) :
    flatBlockStep v nk s = [(nk, v)] := by
  cases v <;> first
    | rfl
    | exact absurd rfl (h _)

theorem intercalate_cons2 (c : Char) (a b : List Char) (t : List (List Char)) :
    List.intercalate [c] (a :: b :: t) = a ++ c :: List.intercalate [c] (b :: t) := by
  simp [List.intercalate]

theorem intercalate_one (c : Char) (a : List Char) :
    List.intercalate [c] [a] = a := by
  simp [List.intercalate]

theorem intercalate_glue (c : Char) (a b : List Char) (t : List (List Char)) :
    List.intercalate [c] ((a ++ c :: b) :: t) =
      a ++ c :: List.intercalate [c] (b :: t) := by
  cases t with
  | nil => rw [intercalate_one, intercalate_one]
  | cons x xs =>
      rw [intercalate_cons2, intercalate_cons2]
      simp

theorem flattenAux_cons_nondict (k : String) (v : PyVal)
    (rest : List (String × PyVal)) (p s : String)
    (out : List (String × PyVal)) (hv : ∀ d, v ≠ PyVal.dict d)
    (hnd : ((flatBlocks ((k, v) :: rest) p s).map Prod.fst).Nodup)
    (hdisj : ∀ q ∈ flatBlocks ((k, v) :: rest) p s, dictMem q.1 out = false)
    (hrec : ∀ out', ((flatBlocks rest p s).map Prod.fst).Nodup →
      (∀ q ∈ flatBlocks rest p s, dictMem q.1 out' = false) →
      flattenAux rest p s out' = out' ++ flatBlocks rest p s) :
    flattenAux ((k, v) :: rest) p s out =
      out ++ flatBlocks ((k, v) :: rest) p s := by
  have hstep : flatBlockStep v (composeKey p s k) s = [(composeKey p s k, v)] :=
    flatBlockStep_non_dict v _ s hv
  have hblocks : flatBlocks ((k, v) :: rest) p s =
      (composeKey p s k, v) :: flatBlocks rest p s := by
    simp [flatBlocks, hstep]
  have hmem0 : dictMem (composeKey p s k) out = false :=
    hdisj (composeKey p s k, v) (by rw [hblocks]; exact List.mem_cons_self _ _)
  rw [hblocks] at hnd
  simp only [List.map_cons, List.nodup_cons] at hnd
  have hdisj' : ∀ q ∈ flatBlocks rest p s,
      dictMem q.1 (out ++ [(composeKey p s k, v)]) = false := by
    intro q hq
    rw [dictMem_append]
    have h1 := hdisj q (by rw [hblocks]; exact List.mem_cons_of_mem _ hq)
    have hqk : composeKey p s k ≠ q.1 := fun he =>
      hnd.1 (he ▸ List.mem_map_of_mem Prod.fst hq)
    have h2 : dictMem q.1 [(composeKey p s k, v)] = false := by
      simp [dictMem, dictGet, hqk]
    simp [h1, h2]
  calc flattenAux ((k, v) :: rest) p s out
      = flattenAux rest p s (flattenStep v (composeKey p s k) s out) := by
        simp [flattenAux]
    _ = flattenAux rest p s (dictSet (composeKey p s k) v out) := by
        rw [flattenStep_non_dict v _ s out hv]
    _ = flattenAux rest p s (out ++ [(composeKey p s k, v)]) := by
        rw [dictSet_of_not_mem v hmem0]
    _ = (out ++ [(composeKey p s k, v)]) ++ flatBlocks rest p s :=
        hrec _ hnd.2 hdisj'
    _ = out ++ flatBlocks ((k, v) :: rest) p s := by rw [hblocks]; simp

theorem flattenAux_eq_blocks (n : Nat) :
    ∀ (entries : List (String × PyVal)) (p s : String)
      (out : List (String × PyVal)), sizeOf entries ≤ n →
      ((flatBlocks entries p s).map Prod.fst).Nodup →
      (∀ q ∈ flatBlocks entries p s, dictMem q.1 out = false) →
      flattenAux entries p s out = out ++ flatBlocks entries p s := by
  induction n using Nat.strong_induction_on with
  | _ n ih =>
    intro entries p s out hsz hnd hdisj
    cases entries with
    | nil => simp [flattenAux, flatBlocks]
    | cons e rest =>
        obtain ⟨k, v⟩ := e
        have hszrest : sizeOf rest < n := by simp_arith at hsz; omega
        cases v
        case dict d =>
          have hszd : sizeOf d < n := by simp_arith at hsz; omega
          have hstep : flatBlockStep (PyVal.dict d) (composeKey p s k) s =
              flatBlocks d (composeKey p s k) s := by simp [flatBlockStep]
          have hblocks : flatBlocks ((k, PyVal.dict d) :: rest) p s =
              flatBlocks d (composeKey p s k) s ++ flatBlocks rest p s := by
            simp [flatBlocks, hstep]
          rw [hblocks] at hnd
          rw [List.map_append] at hnd
          have hndA := (List.nodup_append.mp hnd).1
          have hndB := (List.nodup_append.mp hnd).2.1
          have hdisjAB := (List.nodup_append.mp hnd).2.2
          have hinner : flattenAux d (composeKey p s k) s [] =
              flatBlocks d (composeKey p s k) s := by
            have h0 := ih (sizeOf d) hszd d (composeKey p s k) s []
              (Nat.le_refl _) hndA (fun q _ => rfl)
            simpa using h0
          have hA_disj_out : ∀ q ∈ flatBlocks d (composeKey p s k) s,
              dictMem q.1 out = false := by
            intro q hq
            exact hdisj q (by rw [hblocks]; exact List.mem_append_left _ hq)
          have hupd : dictUpdate out (flattenAux d (composeKey p s k) s []) =
              out ++ flatBlocks d (composeKey p s k) s := by
            rw [hinner]
            exact dictUpdate_append _ _ hndA hA_disj_out
          have hrest_disj : ∀ q ∈ flatBlocks rest p s,
              dictMem q.1 (out ++ flatBlocks d (composeKey p s k) s) = false := by
            intro q hq
            rw [dictMem_append]
            have h1 := hdisj q (by rw [hblocks]; exact List.mem_append_right _ hq)
            have h2 : dictMem q.1 (flatBlocks d (composeKey p s k) s) = false := by
              rw [dictMem_false_iff]
              intro hin
              exact hdisjAB hin (List.mem_map_of_mem Prod.fst hq)
            simp [h1, h2]
          calc flattenAux ((k, PyVal.dict d) :: rest) p s out
              = flattenAux rest p s
                  (dictUpdate out (flattenAux d (composeKey p s k) s [])) := by
                simp [flattenAux, flattenStep]
            _ = flattenAux rest p s (out ++ flatBlocks d (composeKey p s k) s) := by
                rw [hupd]
            _ = (out ++ flatBlocks d (composeKey p s k) s) ++ flatBlocks rest p s :=
                ih (sizeOf rest) hszrest rest p s _ (Nat.le_refl _) hndB hrest_disj
            _ = out ++ flatBlocks ((k, PyVal.dict d) :: rest) p s := by
                rw [hblocks]; simp
        all_goals
          refine flattenAux_cons_nondict _ _ _ _ _ _ ?_ hnd hdisj
            (fun out' h1 h2 =>
              ih (sizeOf rest) hszrest rest p s out' (Nat.le_refl _) h1 h2)
        all_goals simp

theorem flatBlocks_eq_paths (n : Nat) :
    ∀ (entries : List (String × PyVal)) (p s : String), sizeOf entries ≤ n →
      flatBlocks entries p s =
        (pathsV entries).map (fun pv => (composePath p s pv.1, pv.2)) := by
  induction n using Nat.strong_induction_on with
  | _ n ih =>
    intro entries p s hsz
    cases entries with
    | nil => simp [flatBlocks, pathsV]
    | cons e rest =>
        obtain ⟨k, v⟩ := e
        have hszrest : sizeOf rest < n := by simp_arith at hsz; omega
        have hrest := ih (sizeOf rest) hszrest rest p s (Nat.le_refl _)
        cases v
        case dict d =>
          have hszd : sizeOf d < n := by simp_arith at hsz; omega
          have hd := ih (sizeOf d) hszd d (composeKey p s k) s (Nat.le_refl _)
          simp only [flatBlocks, flatBlockStep, pathsV, pathsStep, hrest, hd,
            List.map_map, List.map_append]
          rfl
        all_goals simp [flatBlocks, flatBlockStep, pathsV, pathsStep, hrest,
          composePath]

theorem wfEntries_cons {c : Char} {k : String} {v : PyVal}
    {rest : List (String × PyVal)}
    (h : wfEntries c ((k, v) :: rest) = true) :
    goodKey c k = true ∧ dictMem k rest = false ∧ wfVal c v = true ∧
      wfEntries c rest = true := by
  unfold wfEntries at h
  simp only [Bool.and_eq_true, Bool.not_eq_true'] at h
  exact ⟨h.1.1.1, h.1.1.2, h.1.2, h.2⟩

theorem wfVal_dict {c : Char} {d : List (String × PyVal)}
    (h : wfVal c (PyVal.dict d) = true) :
    d ≠ [] ∧ wfEntries c d = true := by
  unfold wfVal at h
  simp only [Bool.and_eq_true, Bool.not_eq_true'] at h
  refine ⟨?_, h.2⟩
  intro he
  rw [he] at h
  simp at h

theorem pathsV_facts (c : Char) (n : Nat) :
    ∀ entries : List (String × PyVal), sizeOf entries ≤ n →
      wfEntries c entries = true →
      ((pathsV entries).map Prod.fst).Nodup ∧
      (∀ pv ∈ pathsV entries, pv.1 ≠ [] ∧ ∀ k ∈ pv.1, goodKey c k = true) ∧
      (entries ≠ [] → pathsV entries ≠ []) ∧
      (∀ pv ∈ pathsV entries, ∃ k' t, pv.1 = k' :: t ∧
        k' ∈ entries.map Prod.fst) := by
  induction n using Nat.strong_induction_on with
  | _ n ih =>
    intro entries hsz hwf
    cases entries with
    | nil => simp [pathsV]
    | cons e rest =>
        obtain ⟨k, v⟩ := e
        obtain ⟨hgood, hmem, hval, hwfrest⟩ := wfEntries_cons hwf
        have hszrest : sizeOf rest < n := by simp_arith at hsz; omega
        have IHrest := ih (sizeOf rest) hszrest rest (Nat.le_refl _) hwfrest
        have hknotin : k ∉ rest.map Prod.fst := (dictMem_false_iff k rest).mp hmem
        cases v
        case dict d =>
          have hszd : sizeOf d < n := by simp_arith at hsz; omega
          obtain ⟨hdne, hdwf⟩ := wfVal_dict hval
          have IHd := ih (sizeOf d) hszd d (Nat.le_refl _) hdwf
          have hpaths : pathsV ((k, PyVal.dict d) :: rest) =
              (pathsV d).map (fun pv => (k :: pv.1, pv.2)) ++ pathsV rest := by
            simp [pathsV, pathsStep]
          rw [hpaths]
          refine ⟨?_, ?_, ?_, ?_⟩
          · rw [List.map_append, List.nodup_append]
            refine ⟨?_, IHrest.1, ?_⟩
            · rw [List.map_map]
              show (List.map ((fun path => k :: path) ∘ Prod.fst) (pathsV d)).Nodup
              rw [← List.map_map]
              exact IHd.1.map List.cons_injective
            · intro x hxa hxb
              rw [List.map_map] at hxa
              obtain ⟨pv, hpv, hx⟩ := List.mem_map.mp hxa
              obtain ⟨pv', hpv', hx'⟩ := List.mem_map.mp hxb
              obtain ⟨k', t, hkt, hk'⟩ := IHrest.2.2.2 pv' hpv'
              rw [hx'] at hkt
              rw [← hx] at hkt
              injection hkt with hk1 _
              exact hknotin (by rw [hk1]; exact hk')
          · intro pv hpv
            rcases List.mem_append.mp hpv with h | h
            · obtain ⟨pv', hpv', hx⟩ := List.mem_map.mp h
              obtain ⟨hne', hcomp'⟩ := IHd.2.1 pv' hpv'
              subst hx
              refine ⟨by simp, ?_⟩
              intro k'' hk''
              rcases List.mem_cons.mp hk'' with h1 | h1
              · exact h1 ▸ hgood
              · exact hcomp' k'' h1
            · exact IHrest.2.1 pv h
          · intro _
            have : pathsV d ≠ [] := IHd.2.2.1 hdne
            simp [this]
          · intro pv hpv
            rcases List.mem_append.mp hpv with h | h
            · obtain ⟨pv', hpv', hx⟩ := List.mem_map.mp h
              subst hx
              exact ⟨k, pv'.1, rfl, by simp⟩
            · obtain ⟨k', t, hkt, hk'⟩ := IHrest.2.2.2 pv h
              exact ⟨k', t, hkt, by simp [hk']⟩
        all_goals (
          simp only [pathsV, pathsStep, List.singleton_append]
          refine ⟨?_, ?_, ?_, ?_⟩
          · rw [List.map_cons, List.nodup_cons]
            refine ⟨?_, IHrest.1⟩
            intro hin
            obtain ⟨pv', hpv', hx⟩ := List.mem_map.mp hin
            obtain ⟨k', t, hkt, hk'⟩ := IHrest.2.2.2 pv' hpv'
            rw [hx] at hkt
            injection hkt with hk1 _
            exact hknotin (by rw [hk1]; exact hk')
          · intro pv hpv
            rcases List.mem_cons.mp hpv with h | h
            · subst h
              refine ⟨by simp, ?_⟩
              intro k'' hk''
              rcases List.mem_cons.mp hk'' with h1 | h1
              · exact h1 ▸ hgood
              · simp at h1
            · exact IHrest.2.1 pv h
          · intro _
            simp
          · intro pv hpv
            rcases List.mem_cons.mp hpv with h | h
            · subst h
              exact ⟨k, [], rfl, by simp⟩
            · obtain ⟨k', t, hkt, hk'⟩ := IHrest.2.2.2 pv h
              exact ⟨k', t, hkt, by simp [hk']⟩)

theorem goodKey_spec {c : Char} {s : String} (h : goodKey c s = true) :
    s ≠ "" ∧ c ∉ s.data := by
  unfold goodKey at h
  simp only [Bool.and_eq_true, Bool.not_eq_true', List.all_eq_true,
    decide_eq_true_eq] at h
  constructor
  · intro he
    rw [he] at h
    exact absurd h.1 (by decide)
  · intro hc
    exact (h.2 c hc) rfl

theorem string_ne_empty_of_data {s : String} (h : s.data ≠ []) : s ≠ "" := by
  intro he
  rw [he] at h
  exact h rfl

theorem composePath_data (c : Char) (path : List String) :
    ∀ p : String, p ≠ "" →
      (composePath p (String.mk [c]) path).data =
        List.intercalate [c] (p.data :: path.map String.data) := by
  induction path with
  | nil =>
      intro p hp
      rw [List.map_nil, intercalate_one]
      rfl
  | cons k rest ih =>
      intro p hp
      have hstep : composePath p (String.mk [c]) (k :: rest) =
          composePath (p ++ String.mk [c] ++ k) (String.mk [c]) rest := by
        simp [composePath, composeKey, hp]
      have hne2 : (p ++ String.mk [c] ++ k) ≠ "" := by
        apply string_ne_empty_of_data
        show (p.data ++ [c] ++ k.data) ≠ []
        simp
      rw [hstep, ih _ hne2]
      have hdata : (p ++ String.mk [c] ++ k).data = p.data ++ c :: k.data := by
        show p.data ++ [c] ++ k.data = p.data ++ c :: k.data
        simp
      rw [hdata, List.map_cons]
      exact intercalate_glue c p.data k.data (rest.map String.data)

theorem splitKey_composePath (c : Char) (path : List String)
    (hnil : path ≠ []) (hgood : ∀ k ∈ path, goodKey c k = true) :
    splitKey c (composePath "" (String.mk [c]) path) = path := by
  cases path with
  | nil => exact absurd rfl hnil
  | cons k rest =>
      obtain ⟨hkne, hkc⟩ := goodKey_spec (hgood k (List.mem_cons_self k rest))
      have h0 : composePath "" (String.mk [c]) (k :: rest) =
          composePath k (String.mk [c]) rest := by
        simp [composePath, composeKey]
      rw [h0]
      unfold splitKey
      rw [composePath_data c rest k hkne]
      rw [List.splitOn_intercalate _ c ?hx ?hne2]
      case hx =>
        intro l hl
        rcases List.mem_cons.mp hl with h | h
        · exact h ▸ hkc
        · obtain ⟨s', hs', hx⟩ := List.mem_map.mp h
          exact hx ▸ (goodKey_spec (hgood s' (List.mem_cons_of_mem k hs'))).2
      case hne2 => simp
      rw [List.map_cons]
      congr 1
      rw [List.map_map]
      have : ∀ a ∈ rest, (String.mk ∘ String.data) a = id a := fun a _ => rfl
      rw [List.map_congr_left this, List.map_id]

theorem dictGet_eq_none_of_not_mem {α : Type} {k : String}
    {m : List (String × α)} (h : dictMem k m = false) :
    dictGet k m = Option.none := by
  rw [dictMem] at h
  cases hg : dictGet k m with
  | none => rfl
  | some v => rw [hg] at h; simp at h

theorem dictGet_append_last {α : Type} {k : String} (u : α)
    {m₁ : List (String × α)} (h : dictMem k m₁ = false) :
    dictGet k (m₁ ++ [(k, u)]) = some u := by
  rw [dictGet_append, dictGet_eq_none_of_not_mem h]
  simp [dictGet]

theorem dictSet_append_last {α : Type} {k : String} (w u : α)
    {m₁ : List (String × α)} (h : dictMem k m₁ = false) :
    dictSet k w (m₁ ++ [(k, u)]) = m₁ ++ [(k, w)] := by
  induction m₁ with
  | nil => simp [dictSet]
  | cons p t ih =>
      obtain ⟨k₀, v₀⟩ := p
      have hk0 : k₀ ≠ k := by
        intro he
        rw [dictMem, dictGet, if_pos he] at h
        simp at h
      have ht : dictMem k t = false := by
        rw [dictMem, dictGet, if_neg hk0] at h
        exact h
      simp [dictSet, hk0, ih ht]

theorem insertPath_one (k : String) (v : PyVal) (m : List (String × PyVal)) :
    insertPath [k] v m = dictSet k v m := rfl

theorem insertPath_cons_found (k : String) (ps : List String) (v : PyVal)
    (m₁ dsub : List (String × PyVal)) (hk : dictMem k m₁ = false)
    (hps : ps ≠ []) :
    insertPath (k :: ps) v (m₁ ++ [(k, PyVal.dict dsub)]) =
      m₁ ++ [(k, PyVal.dict (insertPath ps v dsub))] := by
  cases ps with
  | nil => exact absurd rfl hps
  | cons q qs =>
      show insertPath (k :: q :: qs) v (m₁ ++ [(k, PyVal.dict dsub)]) = _
      rw [insertPath, dictGet_append_last (PyVal.dict dsub) hk]
      · exact dictSet_append_last _ _ hk
      · simp

theorem insertPath_cons_new (k : String) (ps : List String) (v : PyVal)
    (m : List (String × PyVal)) (hk : dictMem k m = false) (hps : ps ≠ []) :
    insertPath (k :: ps) v m = m ++ [(k, PyVal.dict (insertPath ps v []))] := by
  cases ps with
  | nil => exact absurd rfl hps
  | cons q qs =>
      show insertPath (k :: q :: qs) v m = _
      rw [insertPath, dictGet_eq_none_of_not_mem hk]
      simp

theorem unflatFoldP_lift (L : List (List String × PyVal)) :
    ∀ (m₁ : List (String × PyVal)) (k : String)
      (dsub : List (String × PyVal)),
      dictMem k m₁ = false → (∀ pv ∈ L, pv.1 ≠ []) →
      unflatFoldP (m₁ ++ [(k, PyVal.dict dsub)])
          (L.map (fun pv => (k :: pv.1, pv.2))) =
        m₁ ++ [(k, PyVal.dict (unflatFoldP dsub L))] := by
  induction L with
  | nil => intro m₁ k dsub hk hne; rfl
  | cons pv t ih =>
      intro m₁ k dsub hk hne
      obtain ⟨p, v⟩ := pv
      have hp : p ≠ [] := hne (p, v) (List.mem_cons_self _ _)
      simp only [List.map_cons, unflatFoldP, List.foldl_cons]
      rw [insertPath_cons_found k p v m₁ dsub hk hp]
      exact ih m₁ k (insertPath p v dsub) hk
        (fun q hq => hne q (List.mem_cons_of_mem _ hq))

theorem unflatFoldP_create (L : List (List String × PyVal))
    (m : List (String × PyVal)) (k : String) (hk : dictMem k m = false)
    (hne : ∀ pv ∈ L, pv.1 ≠ []) (hL : L ≠ []) :
    unflatFoldP m (L.map (fun pv => (k :: pv.1, pv.2))) =
      m ++ [(k, PyVal.dict (unflatFoldP [] L))] := by
  cases L with
  | nil => exact absurd rfl hL
  | cons pv t =>
      obtain ⟨p, v⟩ := pv
      have hp : p ≠ [] := hne (p, v) (List.mem_cons_self _ _)
      simp only [List.map_cons, unflatFoldP, List.foldl_cons]
      rw [insertPath_cons_new k p v m hk hp]
      exact unflatFoldP_lift t m k (insertPath p v []) hk
        (fun q hq => hne q (List.mem_cons_of_mem _ hq))

theorem unflatFoldP_paths (c : Char) (n : Nat) :
    ∀ (entries : List (String × PyVal)) (m : List (String × PyVal)),
      sizeOf entries ≤ n → wfEntries c entries = true →
      (∀ kv ∈ entries, dictMem kv.1 m = false) →
      unflatFoldP m (pathsV entries) = m ++ entries := by
  induction n using Nat.strong_induction_on with
  | _ n ih =>
    intro entries m hsz hwf hdisj
    cases entries with
    | nil => simp [pathsV, unflatFoldP]
    | cons e rest =>
        obtain ⟨k, v⟩ := e
        obtain ⟨hgood, hmem, hval, hwfrest⟩ := wfEntries_cons hwf
        have hszrest : sizeOf rest < n := by simp_arith at hsz; omega
        have hkm : dictMem k m = false := hdisj (k, v) (List.mem_cons_self _ _)
        have hdisj' : ∀ kv ∈ rest, dictMem kv.1 (m ++ [(k, v)]) = false := by
          intro kv hkv
          rw [dictMem_append]
          have h1 := hdisj kv (List.mem_cons_of_mem _ hkv)
          have hkvk : kv.1 ≠ k := fun he =>
            (dictMem_false_iff k rest).mp hmem
              (he ▸ List.mem_map_of_mem Prod.fst hkv)
          have h2 : dictMem kv.1 [(k, v)] = false := by
            simp [dictMem, dictGet, Ne.symm hkvk]
          simp [h1, h2]
        have hrest : unflatFoldP (m ++ [(k, v)]) (pathsV rest) =
            (m ++ [(k, v)]) ++ rest :=
          ih (sizeOf rest) hszrest rest (m ++ [(k, v)]) (Nat.le_refl _)
            hwfrest hdisj'
        have hsplit : pathsV ((k, v) :: rest) = pathsStep v k ++ pathsV rest := by
          simp [pathsV]
        have happend : unflatFoldP m (pathsStep v k ++ pathsV rest) =
            unflatFoldP (unflatFoldP m (pathsStep v k)) (pathsV rest) := by
          simp [unflatFoldP, List.foldl_append]
        rw [hsplit, happend]
        suffices hinner : unflatFoldP m (pathsStep v k) = m ++ [(k, v)] by
          rw [hinner, hrest]
          simp
        cases v
        case dict d =>
          obtain ⟨hdne, hdwf⟩ := wfVal_dict hval
          have hszd : sizeOf d < n := by simp_arith at hsz; omega
          have hfacts := pathsV_facts c (sizeOf d) d (Nat.le_refl _) hdwf
          have hApaths : pathsStep (PyVal.dict d) k =
              (pathsV d).map (fun pv => (k :: pv.1, pv.2)) := by
            simp [pathsStep]
          rw [hApaths, unflatFoldP_create (pathsV d) m k hkm
            (fun pv hpv => (hfacts.2.1 pv hpv).1) (hfacts.2.2.1 hdne)]
          rw [ih (sizeOf d) hszd d [] (Nat.le_refl _) hdwf (fun kv _ => rfl)]
          simp
        all_goals (
          simp only [pathsStep, unflatFoldP, List.foldl_cons, List.foldl_nil,
            insertPath]
          exact dictSet_of_not_mem _ hkm)

/-- C5 (counterexample). The round-trip claim fails as stated: the flat
record `[("a_b", 1)]` has no sibling-key collision after prefixing (its
single composed key is trivially collision-free), yet flattening and then
re-nesting by splitting composed keys on the separator yields
`[("a", {"b": 1})]`, not the original mapping. -/
theorem flatten_roundtrip_counterexample :
    noKeyCollisions [("a_b", PyVal.int 1)] "_" = true ∧
    specUnflatten '_' (pyFlatten [("a_b", PyVal.int 1)] "" "_") ≠
      [("a_b", PyVal.int 1)] := by
  constructor
  · decide
  · decide

/-- C5 (amended). The flatten/un-flatten round trip holds under the
stronger precondition that every key at every nesting level is nonempty
and free of the (single-character) separator, and every nested sub-mapping
is nonempty: then no composed keys collide and re-nesting by splitting
each composed key on the separator reconstructs the original nested
mapping exactly. -/
theorem flatten_roundtrip (c : Char) (d : List (String × PyVal))
    (hwf : wfEntries c d = true) :
    specUnflatten c (pyFlatten d "" (String.mk [c])) = d := by
  have hfacts := pathsV_facts c (sizeOf d) d (Nat.le_refl _) hwf
  have hpaths_eq := flatBlocks_eq_paths (sizeOf d) d "" (String.mk [c])
    (Nat.le_refl _)
  have hsplit_inv : ∀ pv ∈ pathsV d,
      splitKey c (composePath "" (String.mk [c]) pv.1) = pv.1 :=
    fun pv hpv => splitKey_composePath c pv.1 (hfacts.2.1 pv hpv).1
      (hfacts.2.1 pv hpv).2
  have hkeys : (flatBlocks d "" (String.mk [c])).map Prod.fst =
      (pathsV d).map (fun pv => composePath "" (String.mk [c]) pv.1) := by
    rw [hpaths_eq, List.map_map]
    rfl
  have hnd : ((flatBlocks d "" (String.mk [c])).map Prod.fst).Nodup := by
    rw [hkeys]
    apply List.Nodup.of_map (splitKey c)
    rw [List.map_map]
    have hcongr : ((pathsV d).map
        (splitKey c ∘ fun pv => composePath "" (String.mk [c]) pv.1)) =
        (pathsV d).map Prod.fst :=
      List.map_congr_left (fun pv hpv => hsplit_inv pv hpv)
    rw [hcongr]
    exact hfacts.1
  have hflat : pyFlatten d "" (String.mk [c]) = flatBlocks d "" (String.mk [c]) := by
    unfold pyFlatten
    have h0 := flattenAux_eq_blocks (sizeOf d) d "" (String.mk [c]) []
      (Nat.le_refl _) hnd (fun q _ => rfl)
    simpa using h0
  rw [hflat]
  have hunf : specUnflatten c (flatBlocks d "" (String.mk [c])) =
      unflatFoldP []
        ((flatBlocks d "" (String.mk [c])).map
          (fun kv => (splitKey c kv.1, kv.2))) := by
    unfold specUnflatten unflatFoldP
    rw [List.foldl_map]
  rw [hunf, hpaths_eq, List.map_map]
  have hmapeq : ((pathsV d).map
      ((fun kv : String × PyVal => (splitKey c kv.1, kv.2)) ∘
        fun pv : List String × PyVal =>
          (composePath "" (String.mk [c]) pv.1, pv.2))) = pathsV d := by
    have hpt : ∀ pv ∈ pathsV d,
        ((fun kv : String × PyVal => (splitKey c kv.1, kv.2)) ∘
          (fun pv : List String × PyVal =>
            (composePath "" (String.mk [c]) pv.1, pv.2))) pv = id pv := by
      intro pv hpv
      show (splitKey c (composePath "" (String.mk [c]) pv.1), pv.2) = pv
      rw [hsplit_inv pv hpv]
    rw [List.map_congr_left hpt, List.map_id]
  rw [hmapeq]
  have h1 := unflatFoldP_paths c (sizeOf d) d [] (Nat.le_refl _) hwf
    (fun kv _ => rfl)
  simpa using h1

theorem flatten_roundtrip_witness :
    wfEntries '_'
      [("a", PyVal.dict [("b", PyVal.int 1), ("c", PyVal.str "x")]),
       ("d", PyVal.bool true)] = true ∧
    specUnflatten '_'
        (pyFlatten
          [("a", PyVal.dict [("b", PyVal.int 1), ("c", PyVal.str "x")]),
           ("d", PyVal.bool true)] "" (String.mk ['_'])) =
      [("a", PyVal.dict [("b", PyVal.int 1), ("c", PyVal.str "x")]),
       ("d", PyVal.bool true)] :=
  ⟨by decide,
   flatten_roundtrip '_'
     [("a", PyVal.dict [("b", PyVal.int 1), ("c", PyVal.str "x")]),
      ("d", PyVal.bool true)] (by decide)⟩

end UnityFS
